import Mathlib

/-!
Verification of the dependency-rule generator `makedepend.py`.

The development shallowly embeds the script: the filesystem is a finite
snapshot (list of path/content pairs), file contents are lists of lines,
and the regex-based directive scanners are modelled as per-line matchers
mirroring the patterns compiled in the source.  The two recursive
resolvers (`fill_header_deplist` for Fortran, `fill_object_deplist` for
C/C++) are embedded as fuel-indexed structural recursions over an explicit
task type: the `one` constructor is the Python function body for a single
filename/basename and the list constructors are its inlined `for` loops.
Besides the dependency set each resolver also returns the trace of
LogicalFiles whose physical content it opened and scanned, so that the
"never re-scanned" discipline is observable.  The rule emitter
`write_depend_table` returns the list of emitted rule records, using
`Except` so that the `TypeError` raised by `get_object(None)` is a value.
-/

/-! ## Generic string helpers (character-list based, kernel-reducible) -/

/-- Strip an exact literal prefix from a character list. -/
def stripPfx : List Char → List Char → Option (List Char)
  | [], s => some s
  | _ :: _, [] => none
  | p :: ps, c :: cs => if p == c then stripPfx ps cs else none

/-- Strip a literal prefix, comparing characters case-insensitively
(models `re.IGNORECASE` on a literal). -/
def stripPfxCI : List Char → List Char → Option (List Char)
  | [], s => some s
  | _ :: _, [] => none
  | p :: ps, c :: cs => if p.toLower == c.toLower then stripPfxCI ps cs else none

/-- Drop leading literal space characters (the regexes use `' '*` / `' '+`,
matching only the space character). -/
def dropSpacesL : List Char → List Char
  | ' ' :: rest => dropSpacesL rest
  | l => l

/-- Greedy capture of `(.*)` followed by one closing character: the capture
extends to just before the last closing character of the line. -/
def captureToLast (isClose : Char → Bool) (s : List Char) : Option (List Char) :=
  match s.reverse.dropWhile (fun c => !(isClose c)) with
  | [] => none
  | _ :: before => some before.reverse

/-- Left-to-right, non-overlapping replacement of every occurrence of a
pattern, as `str.replace` does; fuel-indexed for structural recursion
(the wrapper supplies enough fuel for the whole string). -/
def replaceAllF (pat rep : List Char) : Nat → List Char → List Char
  | 0, s => s
  | _ + 1, [] => []
  | fuel + 1, c :: rest =>
    match stripPfx pat (c :: rest) with
    | some rem => rep ++ replaceAllF pat rep fuel rem
    | none => c :: replaceAllF pat rep fuel rest

/-- `s.replace(pat, rep)` of Python. -/
def strReplace (s pat rep : String) : String :=
  String.mk (replaceAllF pat.toList rep.toList (s.toList.length + 1) s.toList)

/-- `s.startswith(pre)` of Python. -/
def strStartsWith (s pre : String) : Bool :=
  (stripPfx pre.toList s.toList).isSome

/-- `s.endswith(suf)` of Python. -/
def strEndsWith (s suf : String) : Bool :=
  (stripPfx suf.toList.reverse s.toList.reverse).isSome

/-- `s.lower()` of Python (ASCII case folding suffices for module names). -/
def strToLower (s : String) : String :=
  String.mk (s.toList.map Char.toLower)

/-- `sep.join(items)` of Python. -/
def joinSep (sep : String) : List String → String
  | [] => ""
  | [x] => x
  | x :: rest => x ++ sep ++ joinSep sep rest

/-- `os.path.splitext(p)[0]`: the path with its extension removed; the
extension starts at the last dot of the final path component, except that
leading dots of that component never begin an extension. -/
def splitextRoot (p : String) : String :=
  let cs := p.toList
  let rev := cs.reverse
  let base := (rev.takeWhile (fun c => !(c == '/'))).reverse
  let dir := (rev.dropWhile (fun c => !(c == '/'))).reverse
  let leading := base.takeWhile (fun c => c == '.')
  let rest := base.dropWhile (fun c => c == '.')
  if rest.any (fun c => c == '.') then
    String.mk (dir ++ leading ++ ((rest.reverse.dropWhile (fun c => !(c == '.'))).drop 1).reverse)
  else p

/-- Add an element to a list used as a mathematical set (`set.add`):
appended only when not already present. -/
def addSet (dl : List String) (x : String) : List String :=
  if x ∈ dl then dl else dl ++ [x]

/-- Insertion into an insertion-ordered dictionary (`d[k] = v`): an
existing key keeps its position and has its value overwritten. -/
def dictInsert {α β : Type} [BEq α] (d : List (α × β)) (k : α) (v : β) : List (α × β) :=
  if d.any (fun p => p.1 == k) then d.map (fun p => if p.1 == k then (k, v) else p)
  else d ++ [(k, v)]

/-! ## Filesystem snapshot and configuration -/

/-- Collapse runs of `/` to one, as the POSIX kernel does when resolving
a path (`get_realfile` produces paths like `src//x.f90`, which name the
same file as `src/x.f90`). -/
def normSlashes : List Char → List Char
  | [] => []
  | [c] => [c]
  | c1 :: c2 :: rest =>
    if c1 == '/' && c2 == '/' then normSlashes (c2 :: rest)
    else c1 :: normSlashes (c2 :: rest)

def normPath (p : String) : String :=
  String.mk (normSlashes p.toList)

/-- A finite filesystem snapshot: existing regular files with their
content, the content being the list of its lines. -/
structure FS where
  files : List (String × List String)

/-- `os.path.isfile`; paths are compared up to separator collapsing. -/
def FS.isFile (fs : FS) (p : String) : Bool :=
  fs.files.any (fun f => normPath f.1 == normPath p)

/-- The full content (as lines) read from an open file; a non-existing
path yields no lines (reads are only performed on located files). -/
def FS.content (fs : FS) (p : String) : List String :=
  match fs.files.find? (fun f => normPath f.1 == normPath p) with
  | some f => f.2
  | none => []

/-- The two search-root paths (`srcdir`, `incdir` globals), each already
carrying its trailing separator as `parse_arguments` guarantees. -/
structure Cfg where
  srcdir : String
  incdir : String

/-! ## Source-level definitions -/

def srcext : List String := [".c", ".cpp", ".f90", ".f"]

def incext : List String := [".h", ".hpp", ".inc"]

def is_fortran (filename : String) : Bool :=
  strEndsWith filename ".f" || strEndsWith filename ".f90" || strEndsWith filename ".inc"

def basename (filename : String) : String :=
  splitextRoot filename

def get_program (b : String) : String :=
  strReplace b "main_" "$(BINDIR)/"

def get_object (srcname : String) : String :=
  splitextRoot srcname ++ ".o"

def get_module (cfg : Cfg) (fs : FS) (b : String) : Option String :=
  let b := strToLower b
  if fs.isFile (cfg.srcdir ++ b ++ ".f90") || fs.isFile (cfg.srcdir ++ b ++ ".f") then
    some ("$(SRCDIR)/" ++ b ++ ".mod")
  else none

/-- The extension loop of `get_source`. -/
def get_source_loop (cfg : Cfg) (fs : FS) (b : String) : List String → Option String
  | [] => none
  | ext :: rest =>
    let filename := b ++ ext
    if fs.isFile (cfg.srcdir ++ filename) then some ("$(SRCDIR)/" ++ filename)
    else get_source_loop cfg fs b rest

def get_source (cfg : Cfg) (fs : FS) (b : String) : Option String :=
  get_source_loop cfg fs b srcext

/-- The extension loop of `get_include`. -/
def get_include_loop (cfg : Cfg) (fs : FS) (b : String) : List String → Option String
  | [] => none
  | ext :: rest =>
    let filename := b ++ ext
    if fs.isFile (cfg.incdir ++ filename) then some ("$(INCDIR)/" ++ filename)
    else get_include_loop cfg fs b rest

def get_include (cfg : Cfg) (fs : FS) (b : String) : Option String :=
  get_include_loop cfg fs b incext

def get_realfile (cfg : Cfg) (filename : String) : String :=
  strReplace (strReplace filename "$(SRCDIR)" cfg.srcdir) "$(INCDIR)" cfg.incdir

/-! ## Directive scanners

`re.findall` with a `^`-anchored multi-line pattern produces at most one
match per physical line (`.` and `[^ \n]` never cross a newline and a
later match would again need a line start), so scanning the whole content
is `filterMap` of a per-line matcher over the lines. -/

/-- One line against `^#include *[<"](.*)[">]` (compiled with `re.M`
only, so case-sensitive and without leading whitespace). -/
def scan_c_include (line : String) : Option String :=
  match stripPfx "#include".toList line.toList with
  | none => none
  | some rest =>
    match dropSpacesL rest with
    | [] => none
    | c :: rest2 =>
      if c == '<' || c == '"' then
        (captureToLast (fun d => d == '"' || d == '>') rest2).map String.mk
      else none

/-- One line against `^ *include *["'](.*)['"]` with `re.M | re.IGNORECASE`. -/
def scan_f_include (line : String) : Option String :=
  match stripPfxCI "include".toList (dropSpacesL line.toList) with
  | none => none
  | some rest =>
    match dropSpacesL rest with
    | [] => none
    | c :: rest2 =>
      if c == '"' || c == '\'' then
        (captureToLast (fun d => d == '\'' || d == '"') rest2).map String.mk
      else none

/-- One line against `^ *use +([^ \n]*)$` with `re.M | re.IGNORECASE`:
after `use` and at least one space, the rest of the line must contain no
space and is captured whole (greedy ` +` absorbs all spaces first). -/
def scan_f_use (line : String) : Option String :=
  match stripPfxCI "use".toList (dropSpacesL line.toList) with
  | none => none
  | some rest =>
    match rest with
    | ' ' :: rest2 =>
      let rest3 := dropSpacesL rest2
      if rest3.all (fun c => !(c == ' ')) then some (String.mk rest3) else none
    | _ => none

def scan_includes_f (fs : FS) (real : String) : List String :=
  (fs.content real).filterMap scan_f_include

def scan_uses_f (fs : FS) (real : String) : List String :=
  (fs.content real).filterMap scan_f_use

def scan_includes_c (fs : FS) (real : String) : List String :=
  (fs.content real).filterMap scan_c_include

/-! ## Fortran resolver: `fill_header_deplist` -/

/-- The `$(INCDIR)/`- or `$(SRCDIR)/`-tagged LogicalFile name built at the
top of `fill_header_deplist`. -/
def tag_of (filename : String) : String :=
  if strEndsWith filename ".inc" then "$(INCDIR)/" ++ filename
  else "$(SRCDIR)/" ++ filename

/-- The module loop at the bottom of `fill_header_deplist`: each `use`
target is resolved by `get_module` and, when a defining file exists, its
compiled-module artifact is added to the set (no recursion). -/
def add_modules (cfg : Cfg) (fs : FS) (dl : List String) (uses : List String) : List String :=
  uses.foldl (fun d m =>
    match get_module cfg fs m with
    | some art => addSet d art
    | none => d) dl

/-- A pending piece of work of the Fortran resolver: `one` is the body of
`fill_header_deplist` for one filename, `many` its inlined recursion loop
over the scanned include targets. -/
inductive HTask where
  | one (filename : String)
  | many (filenames : List String)

/-- The filenames a task works on directly (used to state where a set
member can originate from). -/
def HTask.names : HTask → List String
  | HTask.one f => [f]
  | HTask.many l => l

/-- `fill_header_deplist`, fuel-indexed (every step consumes one unit of
fuel so the recursion is structural; adequate fuel makes the result
`some`).  Returns the dependency set together with the trace of
LogicalFiles whose content was opened and scanned, in scan order. -/
def fh_run (cfg : Cfg) (fs : FS) : Nat → List String → HTask → Option (List String × List String)
  | 0, _, _ => none
  | fuel + 1, dl, HTask.one filename =>
    let tagged := tag_of filename
    if tagged ∈ dl then some (dl, [])
    else
      let dl1 := dl ++ [tagged]
      let real := get_realfile cfg tagged
      if fs.isFile real then
        match fh_run cfg fs fuel dl1 (HTask.many (scan_includes_f fs real)) with
        | none => none
        | some (dl2, tr) =>
          if strEndsWith real ".inc" then some (dl2, tagged :: tr)
          else some (add_modules cfg fs dl2 (scan_uses_f fs real), tagged :: tr)
      else some (dl1, [])
  | _ + 1, dl, HTask.many [] => some (dl, [])
  | fuel + 1, dl, HTask.many (f :: rest) =>
    match fh_run cfg fs fuel dl (HTask.one f) with
    | none => none
    | some (dl1, tr1) =>
      match fh_run cfg fs fuel dl1 (HTask.many rest) with
      | none => none
      | some (dl2, tr2) => some (dl2, tr1 ++ tr2)

def fill_header_deplist (cfg : Cfg) (fs : FS) (fuel : Nat) (dl : List String)
    (filename : String) : Option (List String × List String) :=
  fh_run cfg fs fuel dl (HTask.one filename)

/-! ## C/C++ resolver: `fill_object_deplist` -/

/-- `filter(None, [get_include(basename), get_source(basename)])`. -/
def located (cfg : Cfg) (fs : FS) (b : String) : List String :=
  List.filterMap id [get_include cfg fs b, get_source cfg fs b]

/-- A pending piece of work of the C/C++ resolver: `one` is the body of
`fill_object_deplist` for one basename, `files` its loop over the located
header/source pair, `incs` the inlined recursion loop over the scanned
include targets of one newly added file. -/
inductive OTask where
  | one (b : String)
  | files (fs : List String)
  | incs (targets : List String)

/-- `fill_object_deplist`, fuel-indexed like `fh_run`; also returns the
trace of LogicalFiles whose content was opened and scanned. -/
def fo_run (cfg : Cfg) (fs : FS) : Nat → List String → OTask → Option (List String × List String)
  | 0, _, _ => none
  | fuel + 1, dl, OTask.one b => fo_run cfg fs fuel dl (OTask.files (located cfg fs b))
  | _ + 1, dl, OTask.files [] => some (dl, [])
  | fuel + 1, dl, OTask.files (file :: rest) =>
    if file ∈ dl then fo_run cfg fs fuel dl (OTask.files rest)
    else
      match fo_run cfg fs fuel (dl ++ [file])
          (OTask.incs (scan_includes_c fs (get_realfile cfg file))) with
      | none => none
      | some (dl2, tr) =>
        match fo_run cfg fs fuel dl2 (OTask.files rest) with
        | none => none
        | some (dl3, tr2) => some (dl3, (file :: tr) ++ tr2)
  | _ + 1, dl, OTask.incs [] => some (dl, [])
  | fuel + 1, dl, OTask.incs (t :: rest) =>
    match fo_run cfg fs fuel dl (OTask.one (splitextRoot t)) with
    | none => none
    | some (dl1, tr1) =>
      match fo_run cfg fs fuel dl1 (OTask.incs rest) with
      | none => none
      | some (dl2, tr2) => some (dl2, tr1 ++ tr2)

def fill_object_deplist (cfg : Cfg) (fs : FS) (fuel : Nat) (dl : List String)
    (b : String) : Option (List String × List String) :=
  fo_run cfg fs fuel dl (OTask.one b)

/-! ## Rule emitter: `write_depend_table`

The output stream is modelled as the list of emitted rule records (the
source terminates every record with a blank line).  The `TypeError`
raised by `get_object(None)` on a `None` Fortran key becomes the
`Except.error` case, carrying the records already written at that point. -/

/-- The C/C++ program loop: accumulates one link rule per program and
adds every member of every program's set to `self_depend`. -/
def wdt_c (lines : List String) (sd : List String) :
    List (String × List String) → List String × List String
  | [] => (lines, sd)
  | (program, deplist) :: rest =>
    let step := deplist.foldl (fun acc item =>
      (if strStartsWith item "$(SRCDIR)" then acc.1 ++ " " ++ get_object item else acc.1,
       addSet acc.2 item)) (program ++ ":", sd)
    wdt_c (lines ++ [step.1]) step.2 rest

/-- The Fortran loop: one rule per source mapping its object form to
every other member of its set; only the source key itself joins
`self_depend`.  A `none` key makes `get_object` raise. -/
def wdt_f (lines : List String) (sd : List String) :
    List (Option String × List String) → Except (List String) (List String × List String)
  | [] => Except.ok (lines, sd)
  | (none, _) :: _ => Except.error lines
  | (some source, deplist) :: rest =>
    let rule := deplist.foldl (fun r item => if source == item then r else r ++ " " ++ item)
      (get_object source ++ ":")
    wdt_f (lines ++ [rule]) (addSet sd source) rest

def write_depend_table (depend_filename : String) (depend_table : List (String × List String))
    (fortran_headers : List (Option String × List String)) :
    Except (List String) (List String) :=
  let cpart := wdt_c [] [] depend_table
  match wdt_f cpart.1 cpart.2 fortran_headers with
  | Except.error ls => Except.error ls
  | Except.ok (lines, sd) =>
    Except.ok (lines ++ [depend_filename ++ ": " ++ joinSep " " sd]
      ++ sd.map (fun item => item ++ ":"))

/-! ## Entry loop: `main` -/

structure Tables where
  depend_table : List (String × List String)
  fortran_headers : List (Option String × List String)

/-- The per-entry loop of `main` filling both tables. -/
def mainTables (cfg : Cfg) (fs : FS) (fuel : Nat) : List String → Tables → Option Tables
  | [], t => some t
  | item :: rest, t =>
    if is_fortran item then
      match fill_header_deplist cfg fs fuel [] item with
      | none => none
      | some (dl, _) =>
        mainTables cfg fs fuel rest
          { t with fortran_headers :=
              dictInsert t.fortran_headers (get_source cfg fs (basename item)) dl }
    else
      match fill_object_deplist cfg fs fuel [] (basename item) with
      | none => none
      | some (dl, _) =>
        mainTables cfg fs fuel rest
          { t with depend_table :=
              dictInsert t.depend_table (get_program (basename item)) dl }

/-- `main` after argument parsing: resolve every entry, then emit. -/
def makedepend (cfg : Cfg) (fs : FS) (fuel : Nat) (outName : String)
    (programs : List String) : Option (Except (List String) (List String)) :=
  match mainTables cfg fs fuel programs ⟨[], []⟩ with
  | none => none
  | some t => some (write_depend_table outName t.depend_table t.fortran_headers)

/-- Decidable equality of emitter results, so concrete runs can be
settled by evaluation. -/
instance {α β : Type} [DecidableEq α] [DecidableEq β] : DecidableEq (Except α β) :=
  fun x y =>
    match x, y with
    | Except.error a, Except.error b =>
      if h : a = b then Decidable.isTrue (by rw [h])
      else Decidable.isFalse (fun hh => h (Except.error.inj hh))
    | Except.error _, Except.ok _ => Decidable.isFalse (fun hh => Except.noConfusion hh)
    | Except.ok _, Except.error _ => Decidable.isFalse (fun hh => Except.noConfusion hh)
    | Except.ok a, Except.ok b =>
      if h : a = b then Decidable.isTrue (by rw [h])
      else Decidable.isFalse (fun hh => h (Except.ok.inj hh))

/-! ## Concrete fixtures used by witnesses and counterexamples -/

/-- The default roots produced by `parse_arguments` when invoked from the
repository top (`src/`, `include/`, trailing separator included). -/
def exCfg : Cfg := ⟨"src/", "include/"⟩

def fsEmpty : FS := ⟨[]⟩

/-- A Fortran source whose only include target does not exist on disk. -/
def fsDangle : FS := ⟨[("src/x.f90", ["include 'ghost.inc'"])]⟩

/-- A Fortran source including one existing header. -/
def fsFhdr : FS := ⟨[("src/x.f90", ["include 'a.inc'"]), ("include/a.inc", [])]⟩

/-- The worked example of the specification: `main_app.cpp` includes
`util.h`, which has the associated implementation `util.cpp`. -/
def fsApp : FS :=
  ⟨[("src/main_app.cpp", ["#include \"util.h\""]), ("include/util.h", []),
    ("src/util.cpp", [])]⟩

/-- Fortran module chain: `x.f90` uses `MMod`, whose defining file
`mmod.f90` itself uses `NMod`, defined in `nmod.f90`. -/
def fsMods : FS :=
  ⟨[("src/x.f90", ["use MMod"]), ("src/mmod.f90", ["use NMod"]), ("src/nmod.f90", [])]⟩

/-- The module chain of `fsMods` with one extra twist: `x.f90` also
includes `z.f90` (a file distinct from M's `mmod.f90`), and `z.f90`
itself uses `NMod`. -/
def fsModsInc : FS :=
  ⟨[("src/x.f90", ["use MMod", "include 'z.f90'"]),
    ("src/z.f90", ["use NMod"]),
    ("src/mmod.f90", ["use NMod"]),
    ("src/nmod.f90", [])]⟩

/-- C/C++ include chain a → b → c across both roots. -/
def fsChain : FS :=
  ⟨[("src/a.cpp", ["#include \"b.h\""]), ("include/b.h", ["#include <c.h>"]),
    ("src/c.c", [])]⟩

/-- A cyclic Fortran inclusion graph. -/
def fsCycH : FS :=
  ⟨[("include/a.inc", ["include 'b.inc'"]), ("include/b.inc", ["include 'a.inc'"])]⟩

/-- A cyclic C/C++ inclusion graph. -/
def fsCycO : FS :=
  ⟨[("include/a.h", ["#include \"b.h\""]), ("include/b.h", ["#include \"a.h\""])]⟩

/-! ## Helper lemmas -/

theorem mem_addSet {dl : List String} {x y : String} :
    y ∈ addSet dl x ↔ y ∈ dl ∨ y = x := by
  unfold addSet
  by_cases h : x ∈ dl
  · simp only [if_pos h]
    constructor
    · exact fun hy => Or.inl hy
    · rintro (hy | rfl) <;> [exact hy; exact h]
  · simp [if_neg h]

theorem addSet_isPfx (dl : List String) (x : String) : dl <+: addSet dl x := by
  unfold addSet
  by_cases h : x ∈ dl
  · simp [if_pos h]
  · exact if_neg h ▸ ⟨[x], rfl⟩

theorem addSet_nodup {dl : List String} (h : dl.Nodup) (x : String) :
    (addSet dl x).Nodup := by
  unfold addSet
  by_cases hx : x ∈ dl
  · simpa [if_pos hx] using h
  · simp only [if_neg hx]
    simpa [List.nodup_append, h] using hx

theorem mem_foldl_addSet : ∀ (l sd : List String) (y : String),
    y ∈ l.foldl addSet sd ↔ y ∈ sd ∨ y ∈ l := by
  intro l
  induction l with
  | nil => simp
  | cons x xs ih =>
    intro sd y
    simp only [List.foldl_cons, ih, mem_addSet, List.mem_cons]
    tauto

theorem add_modules_isPfx (cfg : Cfg) (fs : FS) :
    ∀ (uses : List String) (dl : List String), dl <+: add_modules cfg fs dl uses := by
  intro uses
  induction uses with
  | nil => intro dl; simp [add_modules]
  | cons u us ih =>
    intro dl
    show dl <+: add_modules cfg fs dl (u :: us)
    unfold add_modules
    simp only [List.foldl_cons]
    have step : dl <+: (match get_module cfg fs u with
        | some art => addSet dl art
        | none => dl) := by
      cases get_module cfg fs u with
      | none => exact List.prefix_refl dl
      | some art => exact addSet_isPfx dl art
    exact step.trans (ih _)

theorem mem_add_modules (cfg : Cfg) (fs : FS) :
    ∀ (uses : List String) (dl : List String) (y : String),
    y ∈ add_modules cfg fs dl uses ↔
      y ∈ dl ∨ ∃ u ∈ uses, get_module cfg fs u = some y := by
  intro uses
  induction uses with
  | nil => simp [add_modules]
  | cons u us ih =>
    intro dl y
    unfold add_modules
    simp only [List.foldl_cons]
    have : (us.foldl (fun d m =>
        match get_module cfg fs m with
        | some art => addSet d art
        | none => d) (match get_module cfg fs u with
          | some art => addSet dl art
          | none => dl)) = add_modules cfg fs (match get_module cfg fs u with
          | some art => addSet dl art
          | none => dl) us := rfl
    rw [this, ih]
    cases hm : get_module cfg fs u with
    | none =>
      simp only [List.mem_cons]
      constructor
      · rintro (hy | ⟨v, hv, hgv⟩)
        · exact Or.inl hy
        · exact Or.inr ⟨v, Or.inr hv, hgv⟩
      · rintro (hy | ⟨v, (rfl | hv), hgv⟩)
        · exact Or.inl hy
        · exact absurd hgv (by simp [hm])
        · exact Or.inr ⟨v, hv, hgv⟩
    | some art =>
      simp only [mem_addSet, List.mem_cons]
      constructor
      · rintro ((hy | rfl) | ⟨v, hv, hgv⟩)
        · exact Or.inl hy
        · exact Or.inr ⟨u, Or.inl rfl, hm⟩
        · exact Or.inr ⟨v, Or.inr hv, hgv⟩
      · rintro (hy | ⟨v, (rfl | hv), hgv⟩)
        · exact Or.inl (Or.inl hy)
        · rw [hm] at hgv
          exact Or.inl (Or.inr (Option.some_injective _ hgv).symm)
        · exact Or.inr ⟨v, hv, hgv⟩

theorem add_modules_nodup (cfg : Cfg) (fs : FS) :
    ∀ (uses : List String) (dl : List String), dl.Nodup →
      (add_modules cfg fs dl uses).Nodup := by
  intro uses
  induction uses with
  | nil => intro dl h; simpa [add_modules] using h
  | cons u us ih =>
    intro dl h
    unfold add_modules
    simp only [List.foldl_cons]
    have step : (match get_module cfg fs u with
        | some art => addSet dl art
        | none => dl).Nodup := by
      cases get_module cfg fs u with
      | none => exact h
      | some art => exact addSet_nodup h art
    exact ih _ step

theorem fo_invariants (cfg : Cfg) (fs : FS) :
    ∀ fuel dl t dl' tr, fo_run cfg fs fuel dl t = some (dl', tr) →
      dl <+: dl' ∧ (∀ x ∈ tr, x ∉ dl ∧ x ∈ dl') ∧ tr.Nodup ∧
      (∀ x ∈ dl', x ∈ dl ∨ x ∈ tr) ∧ (dl.Nodup → dl'.Nodup) := by
  intro fuel
  induction fuel with
  | zero => intro dl t dl' tr h; simp [fo_run] at h
  | succ fuel ih =>
    intro dl t dl' tr h
    cases t with
    | one b =>
      simp only [fo_run] at h
      exact ih _ _ _ _ h
    | files l =>
      cases l with
      | nil =>
        simp only [fo_run, Option.some.injEq, Prod.mk.injEq] at h
        obtain ⟨rfl, rfl⟩ := h
        exact ⟨List.prefix_refl _, by simp, List.nodup_nil, fun x hx => Or.inl hx, id⟩
      | cons file rest =>
        simp only [fo_run] at h
        by_cases hmem : file ∈ dl
        · rw [if_pos hmem] at h
          exact ih _ _ _ _ h
        · rw [if_neg hmem] at h
          cases h1 : fo_run cfg fs fuel (dl ++ [file])
              (OTask.incs (scan_includes_c fs (get_realfile cfg file))) with
          | none => rw [h1] at h; exact absurd h (by simp)
          | some p1 =>
            obtain ⟨dl2, tr2⟩ := p1
            rw [h1] at h
            dsimp only at h
            cases h2 : fo_run cfg fs fuel dl2 (OTask.files rest) with
            | none => rw [h2] at h; exact absurd h (by simp)
            | some p2 =>
              obtain ⟨dl3, tr3⟩ := p2
              rw [h2] at h
              dsimp only at h
              simp only [Option.some.injEq, Prod.mk.injEq] at h
              obtain ⟨rfl, rfl⟩ := h
              obtain ⟨hpf1, htr1, hnd1, hsub1, hndl1⟩ := ih _ _ _ _ h1
              obtain ⟨hpf2, htr2, hnd2, hsub2, hndl2⟩ := ih _ _ _ _ h2
              have hpre0 : dl <+: dl ++ [file] := ⟨[file], rfl⟩
              have hpre : dl <+: dl3 := hpre0.trans (hpf1.trans hpf2)
              have hfile2 : file ∈ dl2 := hpf1.subset (by simp)
              have hfile3 : file ∈ dl3 := hpf2.subset hfile2
              refine ⟨hpre, ?_, ?_, ?_, ?_⟩
              · intro x hx
                simp only [List.cons_append, List.mem_cons, List.mem_append] at hx
                rcases hx with rfl | hx | hx
                · exact ⟨hmem, hfile3⟩
                · obtain ⟨hn, hi⟩ := htr1 x hx
                  refine ⟨fun hd => hn (by simp [hd]), hpf2.subset hi⟩
                · obtain ⟨hn, hi⟩ := htr2 x hx
                  exact ⟨fun hd => hn (hpf1.subset (hpre0.subset hd)), hi⟩
              · simp only [List.cons_append, List.nodup_cons, List.nodup_append]
                refine ⟨?_, hnd1, hnd2, ?_⟩
                · intro hx
                  simp only [List.mem_append] at hx
                  rcases hx with hx | hx
                  · exact (htr1 file hx).1 (by simp)
                  · exact (htr2 file hx).1 hfile2
                · intro a ha hb
                  exact (htr2 a hb).1 ((htr1 a ha).2)
              · intro x hx
                rcases hsub2 x hx with hx2 | hx2
                · rcases hsub1 x hx2 with hx1 | hx1
                  · simp only [List.mem_append, List.mem_singleton] at hx1
                    rcases hx1 with hx1 | rfl
                    · exact Or.inl hx1
                    · exact Or.inr (by simp)
                  · exact Or.inr (by simp [hx1])
                · exact Or.inr (by simp [hx2])
              · intro hnd
                have : (dl ++ [file]).Nodup := by
                  simpa [List.nodup_append, hnd] using hmem
                exact hndl2 (hndl1 this)
    | incs l =>
      cases l with
      | nil =>
        simp only [fo_run, Option.some.injEq, Prod.mk.injEq] at h
        obtain ⟨rfl, rfl⟩ := h
        exact ⟨List.prefix_refl _, by simp, List.nodup_nil, fun x hx => Or.inl hx, id⟩
      | cons t0 rest =>
        simp only [fo_run] at h
        cases h1 : fo_run cfg fs fuel dl (OTask.one (splitextRoot t0)) with
        | none => rw [h1] at h; exact absurd h (by simp)
        | some p1 =>
          obtain ⟨dl1, tr1⟩ := p1
          rw [h1] at h
          dsimp only at h
          cases h2 : fo_run cfg fs fuel dl1 (OTask.incs rest) with
          | none => rw [h2] at h; exact absurd h (by simp)
          | some p2 =>
            obtain ⟨dl2, tr2⟩ := p2
            rw [h2] at h
            dsimp only at h
            simp only [Option.some.injEq, Prod.mk.injEq] at h
            obtain ⟨rfl, rfl⟩ := h
            obtain ⟨hpf1, htr1, hnd1, hsub1, hndl1⟩ := ih _ _ _ _ h1
            obtain ⟨hpf2, htr2, hnd2, hsub2, hndl2⟩ := ih _ _ _ _ h2
            refine ⟨hpf1.trans hpf2, ?_, ?_, ?_, ?_⟩
            · intro x hx
              simp only [List.mem_append] at hx
              rcases hx with hx | hx
              · obtain ⟨hn, hi⟩ := htr1 x hx
                exact ⟨hn, hpf2.subset hi⟩
              · obtain ⟨hn, hi⟩ := htr2 x hx
                exact ⟨fun hd => hn (hpf1.subset hd), hi⟩
            · simp only [List.nodup_append]
              refine ⟨hnd1, hnd2, fun a ha hb => (htr2 a hb).1 ((htr1 a ha).2)⟩
            · intro x hx
              rcases hsub2 x hx with hx2 | hx2
              · rcases hsub1 x hx2 with hx1 | hx1
                · exact Or.inl hx1
                · exact Or.inr (by simp [hx1])
              · exact Or.inr (by simp [hx2])
            · exact fun hnd => hndl2 (hndl1 hnd)

theorem fh_invariants (cfg : Cfg) (fs : FS) :
    ∀ fuel dl t dl' tr, fh_run cfg fs fuel dl t = some (dl', tr) →
      dl <+: dl' ∧ (∀ x ∈ tr, x ∉ dl ∧ x ∈ dl') ∧ tr.Nodup ∧ (dl.Nodup → dl'.Nodup) := by
  intro fuel
  induction fuel with
  | zero => intro dl t dl' tr h; simp [fh_run] at h
  | succ fuel ih =>
    intro dl t dl' tr h
    cases t with
    | one filename =>
      simp only [fh_run] at h
      by_cases hmem : tag_of filename ∈ dl
      · rw [if_pos hmem] at h
        simp only [Option.some.injEq, Prod.mk.injEq] at h
        obtain ⟨rfl, rfl⟩ := h
        exact ⟨List.prefix_refl _, by simp, List.nodup_nil, id⟩
      · rw [if_neg hmem] at h
        by_cases hfile : fs.isFile (get_realfile cfg (tag_of filename))
        · rw [if_pos hfile] at h
          cases h1 : fh_run cfg fs fuel (dl ++ [tag_of filename])
              (HTask.many (scan_includes_f fs (get_realfile cfg (tag_of filename)))) with
          | none => rw [h1] at h; exact absurd h (by simp)
          | some p1 =>
            obtain ⟨dl2, tr2⟩ := p1
            rw [h1] at h
            dsimp only at h
            obtain ⟨hpf1, htr1, hnd1, hndl1⟩ := ih _ _ _ _ h1
            have hpre0 : dl <+: dl ++ [tag_of filename] := ⟨[tag_of filename], rfl⟩
            have htag2 : tag_of filename ∈ dl2 := hpf1.subset (by simp)
            have hcommon : ∀ dlf, dl2 <+: dlf →
                dl <+: dlf ∧ (∀ x ∈ tag_of filename :: tr2, x ∉ dl ∧ x ∈ dlf) ∧
                (tag_of filename :: tr2).Nodup ∧ (dl.Nodup → dlf.Nodup → True) := by
              intro dlf hpf2
              refine ⟨hpre0.trans (hpf1.trans hpf2), ?_, ?_, fun _ _ => trivial⟩
              · intro x hx
                rcases List.mem_cons.mp hx with rfl | hx
                · exact ⟨hmem, hpf2.subset htag2⟩
                · obtain ⟨hn, hi⟩ := htr1 x hx
                  exact ⟨fun hd => hn (by simp [hd]), hpf2.subset hi⟩
              · refine List.nodup_cons.mpr ⟨fun hx => (htr1 _ hx).1 (by simp), hnd1⟩
            by_cases hinc : strEndsWith (get_realfile cfg (tag_of filename)) ".inc"
            · rw [if_pos hinc] at h
              simp only [Option.some.injEq, Prod.mk.injEq] at h
              obtain ⟨rfl, rfl⟩ := h
              obtain ⟨ha, hb, hc, _⟩ := hcommon _ (List.prefix_refl _)
              refine ⟨ha, hb, hc, ?_⟩
              intro hnd
              exact hndl1 (by simpa [List.nodup_append, hnd] using hmem)
            · rw [if_neg hinc] at h
              simp only [Option.some.injEq, Prod.mk.injEq] at h
              obtain ⟨rfl, rfl⟩ := h
              have hpf2 : dl2 <+: add_modules cfg fs dl2
                  (scan_uses_f fs (get_realfile cfg (tag_of filename))) :=
                add_modules_isPfx cfg fs _ dl2
              obtain ⟨ha, hb, hc, _⟩ := hcommon _ hpf2
              refine ⟨ha, hb, hc, ?_⟩
              intro hnd
              refine add_modules_nodup cfg fs _ _ ?_
              exact hndl1 (by simpa [List.nodup_append, hnd] using hmem)
        · rw [if_neg hfile] at h
          simp only [Option.some.injEq, Prod.mk.injEq] at h
          obtain ⟨rfl, rfl⟩ := h
          refine ⟨⟨[tag_of filename], rfl⟩, by simp, List.nodup_nil, ?_⟩
          intro hnd
          simpa [List.nodup_append, hnd] using hmem
    | many l =>
      cases l with
      | nil =>
        simp only [fh_run, Option.some.injEq, Prod.mk.injEq] at h
        obtain ⟨rfl, rfl⟩ := h
        exact ⟨List.prefix_refl _, by simp, List.nodup_nil, id⟩
      | cons f rest =>
        simp only [fh_run] at h
        cases h1 : fh_run cfg fs fuel dl (HTask.one f) with
        | none => rw [h1] at h; exact absurd h (by simp)
        | some p1 =>
          obtain ⟨dl1, tr1⟩ := p1
          rw [h1] at h
          dsimp only at h
          cases h2 : fh_run cfg fs fuel dl1 (HTask.many rest) with
          | none => rw [h2] at h; exact absurd h (by simp)
          | some p2 =>
            obtain ⟨dl2, tr2⟩ := p2
            rw [h2] at h
            dsimp only at h
            simp only [Option.some.injEq, Prod.mk.injEq] at h
            obtain ⟨rfl, rfl⟩ := h
            obtain ⟨hpf1, htr1, hnd1, hndl1⟩ := ih _ _ _ _ h1
            obtain ⟨hpf2, htr2, hnd2, hndl2⟩ := ih _ _ _ _ h2
            refine ⟨hpf1.trans hpf2, ?_, ?_, fun hnd => hndl2 (hndl1 hnd)⟩
            · intro x hx
              rcases List.mem_append.mp hx with hx | hx
              · obtain ⟨hn, hi⟩ := htr1 x hx
                exact ⟨hn, hpf2.subset hi⟩
              · obtain ⟨hn, hi⟩ := htr2 x hx
                exact ⟨fun hd => hn (hpf1.subset hd), hi⟩
            · simp only [List.nodup_append]
              exact ⟨hnd1, hnd2, fun a ha hb => (htr2 a hb).1 ((htr1 a ha).2)⟩

theorem fo_files_mem (cfg : Cfg) (fs : FS) :
    ∀ fuel dl l dl' tr, fo_run cfg fs fuel dl (OTask.files l) = some (dl', tr) →
      ∀ g ∈ l, g ∈ dl' := by
  intro fuel
  induction fuel with
  | zero => intro dl l dl' tr h; simp [fo_run] at h
  | succ fuel ih =>
    intro dl l dl' tr h
    cases l with
    | nil => simp
    | cons file rest =>
      simp only [fo_run] at h
      by_cases hmem : file ∈ dl
      · rw [if_pos hmem] at h
        intro g hg
        rcases List.mem_cons.mp hg with rfl | hg
        · exact (fo_invariants cfg fs _ _ _ _ _ h).1.subset hmem
        · exact ih _ _ _ _ h g hg
      · rw [if_neg hmem] at h
        cases h1 : fo_run cfg fs fuel (dl ++ [file])
            (OTask.incs (scan_includes_c fs (get_realfile cfg file))) with
        | none => rw [h1] at h; exact absurd h (by simp)
        | some p1 =>
          obtain ⟨dl2, tr2⟩ := p1
          rw [h1] at h
          dsimp only at h
          cases h2 : fo_run cfg fs fuel dl2 (OTask.files rest) with
          | none => rw [h2] at h; exact absurd h (by simp)
          | some p2 =>
            obtain ⟨dl3, tr3⟩ := p2
            rw [h2] at h
            dsimp only at h
            simp only [Option.some.injEq, Prod.mk.injEq] at h
            obtain ⟨rfl, rfl⟩ := h
            intro g hg
            rcases List.mem_cons.mp hg with rfl | hg
            · have : g ∈ dl2 := (fo_invariants cfg fs _ _ _ _ _ h1).1.subset (by simp)
              exact (fo_invariants cfg fs _ _ _ _ _ h2).1.subset this
            · exact ih _ _ _ _ h2 g hg

theorem fo_one_mem (cfg : Cfg) (fs : FS) :
    ∀ fuel dl b dl' tr, fo_run cfg fs fuel dl (OTask.one b) = some (dl', tr) →
      ∀ g ∈ located cfg fs b, g ∈ dl' := by
  intro fuel
  cases fuel with
  | zero => intro dl b dl' tr h; simp [fo_run] at h
  | succ fuel =>
    intro dl b dl' tr h
    simp only [fo_run] at h
    exact fo_files_mem cfg fs _ _ _ _ _ h

theorem fo_incs_mem (cfg : Cfg) (fs : FS) :
    ∀ fuel dl l dl' tr, fo_run cfg fs fuel dl (OTask.incs l) = some (dl', tr) →
      ∀ t ∈ l, ∀ g ∈ located cfg fs (splitextRoot t), g ∈ dl' := by
  intro fuel
  induction fuel with
  | zero => intro dl l dl' tr h; simp [fo_run] at h
  | succ fuel ih =>
    intro dl l dl' tr h
    cases l with
    | nil => simp
    | cons t0 rest =>
      simp only [fo_run] at h
      cases h1 : fo_run cfg fs fuel dl (OTask.one (splitextRoot t0)) with
      | none => rw [h1] at h; exact absurd h (by simp)
      | some p1 =>
        obtain ⟨dl1, tr1⟩ := p1
        rw [h1] at h
        dsimp only at h
        cases h2 : fo_run cfg fs fuel dl1 (OTask.incs rest) with
        | none => rw [h2] at h; exact absurd h (by simp)
        | some p2 =>
          obtain ⟨dl2, tr2⟩ := p2
          rw [h2] at h
          dsimp only at h
          simp only [Option.some.injEq, Prod.mk.injEq] at h
          obtain ⟨rfl, rfl⟩ := h
          intro t ht g hg
          rcases List.mem_cons.mp ht with rfl | ht
          · exact (fo_invariants cfg fs _ _ _ _ _ h2).1.subset
              (fo_one_mem cfg fs _ _ _ _ _ h1 g hg)
          · exact ih _ _ _ _ h2 t ht g hg

theorem fo_sound (cfg : Cfg) (fs : FS) :
    ∀ fuel dl t dl' tr, fo_run cfg fs fuel dl t = some (dl', tr) →
      ∀ x ∈ tr, ∀ tgt ∈ scan_includes_c fs (get_realfile cfg x),
        ∀ g ∈ located cfg fs (splitextRoot tgt), g ∈ dl' := by
  intro fuel
  induction fuel with
  | zero => intro dl t dl' tr h; simp [fo_run] at h
  | succ fuel ih =>
    intro dl t dl' tr h
    cases t with
    | one b =>
      simp only [fo_run] at h
      exact ih _ _ _ _ h
    | files l =>
      cases l with
      | nil =>
        simp only [fo_run, Option.some.injEq, Prod.mk.injEq] at h
        obtain ⟨rfl, rfl⟩ := h
        simp
      | cons file rest =>
        simp only [fo_run] at h
        by_cases hmem : file ∈ dl
        · rw [if_pos hmem] at h
          exact ih _ _ _ _ h
        · rw [if_neg hmem] at h
          cases h1 : fo_run cfg fs fuel (dl ++ [file])
              (OTask.incs (scan_includes_c fs (get_realfile cfg file))) with
          | none => rw [h1] at h; exact absurd h (by simp)
          | some p1 =>
            obtain ⟨dl2, tr2⟩ := p1
            rw [h1] at h
            dsimp only at h
            cases h2 : fo_run cfg fs fuel dl2 (OTask.files rest) with
            | none => rw [h2] at h; exact absurd h (by simp)
            | some p2 =>
              obtain ⟨dl3, tr3⟩ := p2
              rw [h2] at h
              dsimp only at h
              simp only [Option.some.injEq, Prod.mk.injEq] at h
              obtain ⟨rfl, rfl⟩ := h
              intro x hx tgt htgt g hg
              have hpf2 := (fo_invariants cfg fs _ _ _ _ _ h2).1
              rcases (by simpa using hx : x = file ∨ x ∈ tr2 ∨ x ∈ tr3) with rfl | hx2 | hx2
              · exact hpf2.subset (fo_incs_mem cfg fs _ _ _ _ _ h1 tgt htgt g hg)
              · exact hpf2.subset (ih _ _ _ _ h1 x hx2 tgt htgt g hg)
              · exact ih _ _ _ _ h2 x hx2 tgt htgt g hg
    | incs l =>
      cases l with
      | nil =>
        simp only [fo_run, Option.some.injEq, Prod.mk.injEq] at h
        obtain ⟨rfl, rfl⟩ := h
        simp
      | cons t0 rest =>
        simp only [fo_run] at h
        cases h1 : fo_run cfg fs fuel dl (OTask.one (splitextRoot t0)) with
        | none => rw [h1] at h; exact absurd h (by simp)
        | some p1 =>
          obtain ⟨dl1, tr1⟩ := p1
          rw [h1] at h
          dsimp only at h
          cases h2 : fo_run cfg fs fuel dl1 (OTask.incs rest) with
          | none => rw [h2] at h; exact absurd h (by simp)
          | some p2 =>
            obtain ⟨dl2, tr2⟩ := p2
            rw [h2] at h
            dsimp only at h
            simp only [Option.some.injEq, Prod.mk.injEq] at h
            obtain ⟨rfl, rfl⟩ := h
            intro x hx tgt htgt g hg
            rcases List.mem_append.mp hx with hx1 | hx1
            · exact (fo_invariants cfg fs _ _ _ _ _ h2).1.subset
                (ih _ _ _ _ h1 x hx1 tgt htgt g hg)
            · exact ih _ _ _ _ h2 x hx1 tgt htgt g hg

theorem foldl_addSet_nodup : ∀ (l sd : List String), sd.Nodup → (l.foldl addSet sd).Nodup := by
  intro l
  induction l with
  | nil => intro sd h; simpa using h
  | cons x xs ih => intro sd h; exact ih _ (addSet_nodup h x)

theorem wdt_c_fold_snd (get_obj : String → String) :
    ∀ (deplist : List String) (r : String) (sd : List String),
    (deplist.foldl (fun acc item =>
      (if strStartsWith item "$(SRCDIR)" then acc.1 ++ " " ++ get_obj item else acc.1,
       addSet acc.2 item)) (r, sd)).2 = deplist.foldl addSet sd := by
  intro deplist
  induction deplist with
  | nil => intro r sd; rfl
  | cons x xs ih => intro r sd; simp only [List.foldl_cons]; exact ih _ _

theorem wdt_c_mem (dt : List (String × List String)) :
    ∀ (lines sd : List String) (y : String),
    y ∈ (wdt_c lines sd dt).2 ↔ y ∈ sd ∨ ∃ pd ∈ dt, y ∈ pd.2 := by
  induction dt with
  | nil => intro lines sd y; simp [wdt_c]
  | cons pd rest ih =>
    intro lines sd y
    obtain ⟨prog, deplist⟩ := pd
    show y ∈ (wdt_c _ _ _).2 ↔ _
    rw [wdt_c]
    rw [ih, wdt_c_fold_snd, mem_foldl_addSet]
    simp only [List.mem_cons]
    constructor
    · rintro ((hy | hy) | ⟨q, hq, hyq⟩)
      · exact Or.inl hy
      · exact Or.inr ⟨(prog, deplist), Or.inl rfl, hy⟩
      · exact Or.inr ⟨q, Or.inr hq, hyq⟩
    · rintro (hy | ⟨q, (rfl | hq), hyq⟩)
      · exact Or.inl (Or.inl hy)
      · exact Or.inl (Or.inr hyq)
      · exact Or.inr ⟨q, hq, hyq⟩

theorem wdt_c_nodup (dt : List (String × List String)) :
    ∀ (lines sd : List String), sd.Nodup → (wdt_c lines sd dt).2.Nodup := by
  induction dt with
  | nil => intro lines sd h; simpa [wdt_c] using h
  | cons pd rest ih =>
    intro lines sd h
    obtain ⟨prog, deplist⟩ := pd
    rw [wdt_c]
    exact ih _ _ (by rw [wdt_c_fold_snd]; exact foldl_addSet_nodup _ _ h)

theorem wdt_f_ok (fh : List (Option String × List String)) :
    ∀ (lines sd : List String), (∀ p ∈ fh, p.1.isSome) →
    ∃ lines2 sd2, wdt_f lines sd fh = Except.ok (lines2, sd2) ∧
      (∀ y, y ∈ sd2 ↔ y ∈ sd ∨ ∃ q ∈ fh, q.1 = some y) ∧
      (sd.Nodup → sd2.Nodup) := by
  induction fh with
  | nil =>
    intro lines sd _
    exact ⟨lines, sd, rfl, by simp, id⟩
  | cons q rest ih =>
    intro lines sd hall
    obtain ⟨src?, deplist⟩ := q
    cases src? with
    | none =>
      have hbad := hall (none, deplist) (List.mem_cons_self _ _)
      simp at hbad
    | some src =>
      obtain ⟨lines2, sd2, heq, hmem, hnd⟩ :=
        ih (lines ++ [deplist.foldl (fun r item => if src == item then r else r ++ " " ++ item)
          (get_object src ++ ":")]) (addSet sd src) (fun p hp => hall p (by simp [hp]))
      refine ⟨lines2, sd2, heq, ?_, fun h => hnd (addSet_nodup h src)⟩
      intro y
      rw [hmem y, mem_addSet]
      simp only [List.mem_cons]
      constructor
      · rintro ((hy | hsrc) | ⟨p, hp, hyp⟩)
        · exact Or.inl hy
        · exact Or.inr ⟨(some src, deplist), Or.inl rfl, by rw [hsrc]⟩
        · exact Or.inr ⟨p, Or.inr hp, hyp⟩
      · rintro (hy | ⟨p, (rfl | hp), hyp⟩)
        · exact Or.inl (Or.inl hy)
        · simp only [Option.some.injEq] at hyp
          exact Or.inl (Or.inr hyp.symm)
        · exact Or.inr ⟨p, hp, hyp⟩

theorem get_source_loop_eq (cfg : Cfg) (fs : FS) (b : String) :
    ∀ exts, get_source_loop cfg fs b exts =
      (exts.find? (fun ext => fs.isFile (cfg.srcdir ++ (b ++ ext)))).map
        (fun ext => "$(SRCDIR)/" ++ (b ++ ext)) := by
  intro exts
  induction exts with
  | nil => rfl
  | cons e rest ih =>
    rw [get_source_loop]
    by_cases he : fs.isFile (cfg.srcdir ++ (b ++ e))
    · simp [he, List.find?_cons_of_pos]
    · rw [if_neg (by simpa using he), ih, List.find?_cons_of_neg _ (by simpa using he)]

theorem get_include_loop_eq (cfg : Cfg) (fs : FS) (b : String) :
    ∀ exts, get_include_loop cfg fs b exts =
      (exts.find? (fun ext => fs.isFile (cfg.incdir ++ (b ++ ext)))).map
        (fun ext => "$(INCDIR)/" ++ (b ++ ext)) := by
  intro exts
  induction exts with
  | nil => rfl
  | cons e rest ih =>
    rw [get_include_loop]
    by_cases he : fs.isFile (cfg.incdir ++ (b ++ e))
    · simp [he, List.find?_cons_of_pos]
    · rw [if_neg (by simpa using he), ih, List.find?_cons_of_neg _ (by simpa using he)]

/-- Claim C9: for every basename and search root, the locate operation
tries the fixed extension priority lists (`.h`, `.hpp`, `.inc` for header
lookups and `.c`, `.cpp`, `.f90`, `.f` for source lookups) in order,
returns the LogicalFile of the first extension whose physical file
exists, and returns absent when no extension yields an existing file. -/
theorem claim_C9 (cfg : Cfg) (fs : FS) (b : String) :
    srcext = [".c", ".cpp", ".f90", ".f"] ∧ incext = [".h", ".hpp", ".inc"] ∧
    get_source cfg fs b =
      (srcext.find? (fun ext => fs.isFile (cfg.srcdir ++ (b ++ ext)))).map
        (fun ext => "$(SRCDIR)/" ++ (b ++ ext)) ∧
    get_include cfg fs b =
      (incext.find? (fun ext => fs.isFile (cfg.incdir ++ (b ++ ext)))).map
        (fun ext => "$(INCDIR)/" ++ (b ++ ext)) ∧
    (get_source cfg fs b = none ↔ ∀ ext ∈ srcext, ¬ fs.isFile (cfg.srcdir ++ (b ++ ext))) ∧
    (get_include cfg fs b = none ↔ ∀ ext ∈ incext, ¬ fs.isFile (cfg.incdir ++ (b ++ ext))) := by
  refine ⟨rfl, rfl, get_source_loop_eq cfg fs b srcext, get_include_loop_eq cfg fs b incext,
    ?_, ?_⟩
  · rw [get_source, get_source_loop_eq cfg fs b srcext]
    simp [List.find?_eq_none]
  · rw [get_include, get_include_loop_eq cfg fs b incext]
    simp [List.find?_eq_none]

/-- Witness for C9: the characterization applied to the worked example,
where `util.c` is absent and `util.cpp` is the first existing candidate. -/
theorem claim_C9_witness :
    get_source exCfg fsApp "util" =
      (srcext.find? (fun ext => fsApp.isFile (exCfg.srcdir ++ ("util" ++ ext)))).map
        (fun ext => "$(SRCDIR)/" ++ ("util" ++ ext)) ∧
    get_source exCfg fsApp "util" = some "$(SRCDIR)/util.cpp" := by
  refine ⟨(claim_C9 exCfg fsApp "util").2.2.1, by decide⟩

/-- Claim C4 (the code side): `get_program` replaces every occurrence of
`main_`, not only a leading prefix: an entry basename following the
documented `main_name` convention with `name = domain_solver` is mangled,
and an internal occurrence in a basename without the leading prefix is
also rewritten. -/
theorem claim_C4 :
    get_program "main_domain_solver" = "$(BINDIR)/do$(BINDIR)/solver" ∧
    get_program "main_domain_solver" ≠ "$(BINDIR)/domain_solver" ∧
    get_program "foo_main_bar" = "foo_$(BINDIR)/bar" := by
  decide

/-- Claim C5, counterexample: on the specified snapshot the resolved set
is as claimed, but the emitted link rule is not the claimed
`$(BINDIR)/app: util.o main_app.o` — the object names keep the
`$(SRCDIR)/` token of the set members they are derived from, so neither
claimed prerequisite occurs in the emitted rule text. -/
theorem claim_C5_counterexample :
    makedepend exCfg fsApp 12 "make.dep" ["main_app.cpp"] =
      some (Except.ok
        ["$(BINDIR)/app: $(SRCDIR)/main_app.o $(SRCDIR)/util.o",
         "make.dep: $(SRCDIR)/main_app.cpp $(INCDIR)/util.h $(SRCDIR)/util.cpp",
         "$(SRCDIR)/main_app.cpp:", "$(INCDIR)/util.h:", "$(SRCDIR)/util.cpp:"]) ∧
    "$(BINDIR)/app: util.o main_app.o" ∉
      ["$(BINDIR)/app: $(SRCDIR)/main_app.o $(SRCDIR)/util.o",
       "make.dep: $(SRCDIR)/main_app.cpp $(INCDIR)/util.h $(SRCDIR)/util.cpp",
       "$(SRCDIR)/main_app.cpp:", "$(INCDIR)/util.h:", "$(SRCDIR)/util.cpp:"] := by
  decide

/-- Claim C5 as amended: for entry `main_app` on the specified snapshot
the resolved set is `{SRC/main_app.cpp, INC/util.h, SRC/util.cpp}` (the
root tags spelled as the `$(SRCDIR)/`/`$(INCDIR)/` tokens), and the
emitted link rule maps `$(BINDIR)/app` to the object forms of the two
source-root members, which keep their `$(SRCDIR)/` token:
`$(BINDIR)/app: $(SRCDIR)/main_app.o $(SRCDIR)/util.o`. -/
theorem claim_C5 :
    fill_object_deplist exCfg fsApp 12 [] "main_app" =
      some (["$(SRCDIR)/main_app.cpp", "$(INCDIR)/util.h", "$(SRCDIR)/util.cpp"],
        ["$(SRCDIR)/main_app.cpp", "$(INCDIR)/util.h", "$(SRCDIR)/util.cpp"]) ∧
    ∃ rest, makedepend exCfg fsApp 12 "make.dep" ["main_app.cpp"] =
      some (Except.ok ("$(BINDIR)/app: $(SRCDIR)/main_app.o $(SRCDIR)/util.o" :: rest)) := by
  exact ⟨by decide,
    ["make.dep: $(SRCDIR)/main_app.cpp $(INCDIR)/util.h $(SRCDIR)/util.cpp",
     "$(SRCDIR)/main_app.cpp:", "$(INCDIR)/util.h:", "$(SRCDIR)/util.cpp:"], by decide⟩

/-- Claim C3, counterexample: the entry `foo.txt` has an extension
recognized by no language classification (`is_fortran` is false and no
extension list contains `.txt`), yet the run does not fail at entry-point
setup: it completes the whole pipeline through the non-Fortran object
path and writes output (a rule for the entry and the meta-rule). -/
theorem claim_C3_counterexample :
    is_fortran "foo.txt" = false ∧
    makedepend exCfg fsEmpty 3 "make.dep" ["foo.txt"] =
      some (Except.ok ["foo:", "make.dep: "]) := by
  decide

/-- Claim C3 as amended: there is no entry-name validation: an entry
whose extension is not recognized for language classification is simply
classified non-Fortran and processed through the C/C++ object path; any
such run whose resolution succeeds completes without error, its first
emitted record being the object-path rule for the entry's program name. -/
theorem claim_C3 (cfg : Cfg) (fs : FS) (fuel : Nat) (outName e : String)
    (dl tr : List String)
    (hf : is_fortran e = false)
    (hrun : fill_object_deplist cfg fs fuel [] (basename e) = some (dl, tr)) :
    makedepend cfg fs fuel outName [e] =
      some (write_depend_table outName [(get_program (basename e), dl)] []) ∧
    ∃ rest, write_depend_table outName [(get_program (basename e), dl)] [] =
      Except.ok ((dl.foldl (fun acc item =>
          (if strStartsWith item "$(SRCDIR)" then acc.1 ++ " " ++ get_object item else acc.1,
           addSet acc.2 item)) (get_program (basename e) ++ ":", [])).1 :: rest) := by
  constructor
  · unfold makedepend mainTables
    rw [hf]
    simp only [Bool.false_eq_true, if_false, fill_object_deplist] at *
    rw [hrun]
    simp [mainTables, dictInsert]
  · rw [write_depend_table, wdt_c, wdt_c]
    simp only [List.nil_append]
    exact ⟨_, rfl⟩

/-- Witness for C3: the amended statement applied to entry `foo.txt` over
the empty snapshot. -/
theorem claim_C3_witness :
    makedepend exCfg fsEmpty 3 "make.dep" ["foo.txt"] =
      some (write_depend_table "make.dep" [(get_program (basename "foo.txt"), [])] []) :=
  (claim_C3 exCfg fsEmpty 3 "make.dep" "foo.txt" [] [] (by decide) (by decide)).1

/-- Claim C10: a Fortran entry whose basename has no source file under
any source extension resolves, but its set is stored under the absent
(`None`) source key; the emitter applies the object-name transform to
that key and raises before the entry's rule block is written, so the run
fails with no rules emitted at all (no C/C++ rules precede it here). -/
theorem claim_C10 (cfg : Cfg) (fs : FS) (fuel : Nat) (outName e : String)
    (dl tr : List String)
    (hf : is_fortran e = true)
    (hsrc : get_source cfg fs (basename e) = none)
    (hrun : fill_header_deplist cfg fs fuel [] e = some (dl, tr)) :
    mainTables cfg fs fuel [e] ⟨[], []⟩ = some ⟨[], [(none, dl)]⟩ ∧
    makedepend cfg fs fuel outName [e] = some (Except.error []) := by
  have htab : mainTables cfg fs fuel [e] ⟨[], []⟩ = some ⟨[], [(none, dl)]⟩ := by
    unfold mainTables
    rw [hf]
    simp only [if_true, hrun, hsrc]
    simp [mainTables, dictInsert]
  refine ⟨htab, ?_⟩
  unfold makedepend
  rw [htab]
  rfl

/-- Witness for C10: the bare `.inc` entry `ghost.inc` over the empty
snapshot has no source for basename `ghost`; the run errors with no
output records. -/
theorem claim_C10_witness :
    makedepend exCfg fsEmpty 3 "make.dep" ["ghost.inc"] = some (Except.error []) :=
  (claim_C10 exCfg fsEmpty 3 "make.dep" "ghost.inc" ["$(INCDIR)/ghost.inc"] []
    (by decide) (by decide) (by decide)).2

/-- Claim C1, counterexample: in Fortran header mode a dangling include
target is tolerated without error, but it DOES appear in the resulting
set: `ghost.inc` has no physical file, yet `$(INCDIR)/ghost.inc` is a
member of the resolved set (it is merely never scanned — the trace holds
only the existing `x.f90`). -/
theorem claim_C1_counterexample :
    fsDangle.isFile (get_realfile exCfg "$(INCDIR)/ghost.inc") = false ∧
    fill_header_deplist exCfg fsDangle 3 [] "x.f90" =
      some (["$(SRCDIR)/x.f90", "$(INCDIR)/ghost.inc"], ["$(SRCDIR)/x.f90"]) ∧
    "$(INCDIR)/ghost.inc" ∈ ["$(SRCDIR)/x.f90", "$(INCDIR)/ghost.inc"] := by
  decide

/-- Claim C1 as amended: an include target that resolves to no physical
file causes no error in either mode.  In C/C++ object mode a basename
locating neither header nor source contributes nothing: the set is
returned unchanged and nothing is scanned.  In Fortran header mode the
dangling filename IS first added to the set (tagged with its root token)
and only then found absent, so it remains a set member but is never
scanned. -/
theorem claim_C1 :
    (∀ (cfg : Cfg) (fs : FS) (fuel : Nat) (dl : List String) (b : String),
      get_include cfg fs b = none → get_source cfg fs b = none →
      fill_object_deplist cfg fs (fuel + 2) dl b = some (dl, [])) ∧
    (∀ (cfg : Cfg) (fs : FS) (fuel : Nat) (dl : List String) (f : String),
      tag_of f ∉ dl → fs.isFile (get_realfile cfg (tag_of f)) = false →
      fill_header_deplist cfg fs (fuel + 1) dl f = some (dl ++ [tag_of f], [])) := by
  constructor
  · intro cfg fs fuel dl b hinc hsrc
    unfold fill_object_deplist
    simp only [fo_run, located, hinc, hsrc]
  · intro cfg fs fuel dl f hmem hfile
    unfold fill_header_deplist
    simp only [fh_run, if_neg hmem, hfile]
    rfl

/-- Witness for C1 (amended): both parts at concrete inputs — basename
`nothing` locates no file on the example snapshot and contributes
nothing in object mode; the dangling `ghost.inc` is added unscanned in
header mode. -/
theorem claim_C1_witness :
    fill_object_deplist exCfg fsDangle 5 ["$(SRCDIR)/x.f90"] "nothing" =
      some (["$(SRCDIR)/x.f90"], []) ∧
    fill_header_deplist exCfg fsDangle 4 ["$(SRCDIR)/x.f90"] "ghost.inc" =
      some (["$(SRCDIR)/x.f90", "$(INCDIR)/ghost.inc"], []) := by
  constructor
  · exact claim_C1.1 exCfg fsDangle 3 ["$(SRCDIR)/x.f90"] "nothing" (by decide) (by decide)
  · exact claim_C1.2 exCfg fsDangle 3 ["$(SRCDIR)/x.f90"] "ghost.inc" (by decide) (by decide)

/-- Claim C2, counterexample: for the Fortran entry `x.f90` whose set is
`{$(SRCDIR)/x.f90, $(INCDIR)/a.inc}`, the meta-rule's prerequisites are
only the Fortran source key `$(SRCDIR)/x.f90` — the set member
`$(INCDIR)/a.inc` is referenced in the emitted Fortran rule yet appears
neither in the meta-rule nor as an empty rule. -/
theorem claim_C2_counterexample :
    fill_header_deplist exCfg fsFhdr 8 [] "x.f90" =
      some (["$(SRCDIR)/x.f90", "$(INCDIR)/a.inc"],
        ["$(SRCDIR)/x.f90", "$(INCDIR)/a.inc"]) ∧
    makedepend exCfg fsFhdr 8 "make.dep" ["x.f90"] =
      some (Except.ok
        ["$(SRCDIR)/x.o: $(INCDIR)/a.inc", "make.dep: $(SRCDIR)/x.f90",
         "$(SRCDIR)/x.f90:"]) ∧
    "$(INCDIR)/a.inc:" ∉
      ["$(SRCDIR)/x.o: $(INCDIR)/a.inc", "make.dep: $(SRCDIR)/x.f90",
       "$(SRCDIR)/x.f90:"] := by
  decide

/-- Claim C2 as amended: when every Fortran set is keyed by an existing
source, the emitter appends one meta-rule whose target is the
dependency-output file and whose prerequisites are exactly the distinct
members of the C/C++ sets together with the Fortran source keys (NOT the
Fortran sets' members), followed by one empty rule per such file. -/
theorem claim_C2 (outName : String) (dt : List (String × List String))
    (fh : List (Option String × List String))
    (hfh : ∀ p ∈ fh, p.1.isSome) :
    ∃ rules sd, write_depend_table outName dt fh =
      Except.ok (rules ++ (outName ++ ": " ++ joinSep " " sd) ::
        sd.map (fun item => item ++ ":")) ∧
    sd.Nodup ∧
    (∀ y, y ∈ sd ↔ (∃ pd ∈ dt, y ∈ pd.2) ∨ ∃ q ∈ fh, q.1 = some y) := by
  obtain ⟨lines2, sd2, heq, hmem, hnd⟩ := wdt_f_ok fh (wdt_c [] [] dt).1 (wdt_c [] [] dt).2 hfh
  refine ⟨lines2, sd2, ?_, ?_, ?_⟩
  · rw [write_depend_table, heq]
    simp
  · exact hnd (wdt_c_nodup dt [] [] List.nodup_nil)
  · intro y
    rw [hmem y, wdt_c_mem dt [] [] y]
    simp

/-- Witness for C2 (amended): applied to one C/C++ program set and one
Fortran set over abstract names. -/
theorem claim_C2_witness :
    ∃ rules sd, write_depend_table "out.dep" [("prog", ["$(SRCDIR)/p.c"])]
        [(some "$(SRCDIR)/s.f90", ["$(SRCDIR)/s.f90", "$(INCDIR)/h.inc"])] =
      Except.ok (rules ++ ("out.dep" ++ ": " ++ joinSep " " sd) ::
        sd.map (fun item => item ++ ":")) ∧
    sd.Nodup ∧
    (∀ y, y ∈ sd ↔ (∃ pd ∈ [("prog", ["$(SRCDIR)/p.c"])], y ∈ pd.2) ∨
      ∃ q ∈ [(some "$(SRCDIR)/s.f90", ["$(SRCDIR)/s.f90", "$(INCDIR)/h.inc"])],
        q.1 = some y) :=
  claim_C2 "out.dep" [("prog", ["$(SRCDIR)/p.c"])]
    [(some "$(SRCDIR)/s.f90", ["$(SRCDIR)/s.f90", "$(INCDIR)/h.inc"])]
    (by intro p hp; simp at hp; rw [hp]; rfl)


theorem fh_entry_scanned (cfg : Cfg) (fs : FS) :
    ∀ fuel dl f dl2 tr, fh_run cfg fs fuel dl (HTask.one f) = some (dl2, tr) →
      tag_of f ∉ dl → fs.isFile (get_realfile cfg (tag_of f)) = true →
      tag_of f ∈ tr := by
  intro fuel
  cases fuel with
  | zero => intro dl f dl2 tr h; simp [fh_run] at h
  | succ fuel =>
    intro dl f dl2 tr h hmem hfile
    simp only [fh_run, if_neg hmem] at h
    rw [if_pos hfile] at h
    cases h1 : fh_run cfg fs fuel (dl ++ [tag_of f])
        (HTask.many (scan_includes_f fs (get_realfile cfg (tag_of f)))) with
    | none => rw [h1] at h; exact absurd h (by simp)
    | some p =>
      obtain ⟨d2, t2⟩ := p
      rw [h1] at h
      dsimp only at h
      by_cases hinc : strEndsWith (get_realfile cfg (tag_of f)) ".inc" = true
      · rw [if_pos hinc] at h
        simp only [Option.some.injEq, Prod.mk.injEq] at h
        obtain ⟨rfl, rfl⟩ := h
        simp
      · rw [if_neg hinc] at h
        simp only [Option.some.injEq, Prod.mk.injEq] at h
        obtain ⟨rfl, rfl⟩ := h
        simp

theorem fh_use_sound (cfg : Cfg) (fs : FS) :
    ∀ fuel dl t dl2 tr, fh_run cfg fs fuel dl t = some (dl2, tr) →
      ∀ x ∈ tr, strEndsWith (get_realfile cfg x) ".inc" = false →
      ∀ u ∈ scan_uses_f fs (get_realfile cfg x), ∀ a,
        get_module cfg fs u = some a → a ∈ dl2 := by
  intro fuel
  induction fuel with
  | zero => intro dl t dl2 tr h; simp [fh_run] at h
  | succ fuel ih =>
    intro dl t dl2 tr h
    cases t with
    | one filename =>
      simp only [fh_run] at h
      by_cases hmem : tag_of filename ∈ dl
      · rw [if_pos hmem] at h
        simp only [Option.some.injEq, Prod.mk.injEq] at h
        obtain ⟨rfl, rfl⟩ := h
        simp
      · rw [if_neg hmem] at h
        by_cases hfile : fs.isFile (get_realfile cfg (tag_of filename))
        · rw [if_pos hfile] at h
          cases h1 : fh_run cfg fs fuel (dl ++ [tag_of filename])
              (HTask.many (scan_includes_f fs (get_realfile cfg (tag_of filename)))) with
          | none => rw [h1] at h; exact absurd h (by simp)
          | some p =>
            obtain ⟨d2, t2⟩ := p
            rw [h1] at h
            dsimp only at h
            by_cases hinc : strEndsWith (get_realfile cfg (tag_of filename)) ".inc" = true
            · rw [if_pos hinc] at h
              simp only [Option.some.injEq, Prod.mk.injEq] at h
              obtain ⟨rfl, rfl⟩ := h
              intro x hx hxninc u hu a hga
              rcases List.mem_cons.mp hx with rfl | hx
              · exact absurd hinc (by simp [hxninc])
              · exact ih _ _ _ _ h1 x hx hxninc u hu a hga
            · rw [if_neg hinc] at h
              simp only [Option.some.injEq, Prod.mk.injEq] at h
              obtain ⟨rfl, rfl⟩ := h
              intro x hx hxninc u hu a hga
              rcases List.mem_cons.mp hx with rfl | hx
              · exact (mem_add_modules cfg fs _ _ a).mpr (Or.inr ⟨u, hu, hga⟩)
              · exact (add_modules_isPfx cfg fs _ _).subset
                  (ih _ _ _ _ h1 x hx hxninc u hu a hga)
        · rw [if_neg hfile] at h
          simp only [Option.some.injEq, Prod.mk.injEq] at h
          obtain ⟨rfl, rfl⟩ := h
          simp
    | many l =>
      cases l with
      | nil =>
        simp only [fh_run, Option.some.injEq, Prod.mk.injEq] at h
        obtain ⟨rfl, rfl⟩ := h
        simp
      | cons f rest =>
        simp only [fh_run] at h
        cases h1 : fh_run cfg fs fuel dl (HTask.one f) with
        | none => rw [h1] at h; exact absurd h (by simp)
        | some p1 =>
          obtain ⟨dl1, tr1⟩ := p1
          rw [h1] at h
          dsimp only at h
          cases h2 : fh_run cfg fs fuel dl1 (HTask.many rest) with
          | none => rw [h2] at h; exact absurd h (by simp)
          | some p2 =>
            obtain ⟨d2, t2⟩ := p2
            rw [h2] at h
            dsimp only at h
            simp only [Option.some.injEq, Prod.mk.injEq] at h
            obtain ⟨rfl, rfl⟩ := h
            intro x hx hxninc u hu a hga
            rcases List.mem_append.mp hx with hx | hx
            · exact (fh_invariants cfg fs fuel dl1 _ _ _ h2).1.subset
                (ih _ _ _ _ h1 x hx hxninc u hu a hga)
            · exact ih _ _ _ _ h2 x hx hxninc u hu a hga

theorem fh_origin (cfg : Cfg) (fs : FS) :
    ∀ fuel dl t dl2 tr, fh_run cfg fs fuel dl t = some (dl2, tr) →
      ∀ y ∈ dl2, y ∈ dl ∨
        (∃ f ∈ HTask.names t, y = tag_of f) ∨
        (∃ x ∈ tr, ∃ inc ∈ scan_includes_f fs (get_realfile cfg x), y = tag_of inc) ∨
        (∃ x ∈ tr, ∃ u ∈ scan_uses_f fs (get_realfile cfg x),
          get_module cfg fs u = some y) := by
  intro fuel
  induction fuel with
  | zero => intro dl t dl2 tr h; simp [fh_run] at h
  | succ fuel ih =>
    intro dl t dl2 tr h
    cases t with
    | one filename =>
      simp only [fh_run] at h
      by_cases hmem : tag_of filename ∈ dl
      · rw [if_pos hmem] at h
        simp only [Option.some.injEq, Prod.mk.injEq] at h
        obtain ⟨rfl, rfl⟩ := h
        exact fun y hy => Or.inl hy
      · rw [if_neg hmem] at h
        by_cases hfile : fs.isFile (get_realfile cfg (tag_of filename))
        · rw [if_pos hfile] at h
          cases h1 : fh_run cfg fs fuel (dl ++ [tag_of filename])
              (HTask.many (scan_includes_f fs (get_realfile cfg (tag_of filename)))) with
          | none => rw [h1] at h; exact absurd h (by simp)
          | some p =>
            obtain ⟨d2, t2⟩ := p
            rw [h1] at h
            dsimp only at h
            have hcommon : ∀ y ∈ d2, y ∈ dl ∨
                (∃ f ∈ HTask.names (HTask.one filename), y = tag_of f) ∨
                (∃ x ∈ tag_of filename :: t2,
                  ∃ inc ∈ scan_includes_f fs (get_realfile cfg x), y = tag_of inc) ∨
                (∃ x ∈ tag_of filename :: t2,
                  ∃ u ∈ scan_uses_f fs (get_realfile cfg x),
                    get_module cfg fs u = some y) := by
              intro y hy
              rcases ih _ _ _ _ h1 y hy with hy1 | ⟨g, hg, hyg⟩ | ⟨x, hx, inc, hi, hyi⟩ |
                  ⟨x, hx, u, hu, hyu⟩
              · rcases List.mem_append.mp hy1 with hy1 | hy1
                · exact Or.inl hy1
                · exact Or.inr (Or.inl ⟨filename, by simp [HTask.names],
                    (List.mem_singleton.mp hy1)⟩)
              · exact Or.inr (Or.inr (Or.inl ⟨tag_of filename, by simp, g, hg, hyg⟩))
              · exact Or.inr (Or.inr (Or.inl ⟨x, by simp [hx], inc, hi, hyi⟩))
              · exact Or.inr (Or.inr (Or.inr ⟨x, by simp [hx], u, hu, hyu⟩))
            by_cases hinc : strEndsWith (get_realfile cfg (tag_of filename)) ".inc" = true
            · rw [if_pos hinc] at h
              simp only [Option.some.injEq, Prod.mk.injEq] at h
              obtain ⟨rfl, rfl⟩ := h
              exact hcommon
            · rw [if_neg hinc] at h
              simp only [Option.some.injEq, Prod.mk.injEq] at h
              obtain ⟨rfl, rfl⟩ := h
              intro y hy
              rcases (mem_add_modules cfg fs _ _ y).mp hy with hy2 | ⟨u, hu, hyu⟩
              · exact hcommon y hy2
              · exact Or.inr (Or.inr (Or.inr ⟨tag_of filename, by simp, u, hu, hyu⟩))
        · rw [if_neg hfile] at h
          simp only [Option.some.injEq, Prod.mk.injEq] at h
          obtain ⟨rfl, rfl⟩ := h
          intro y hy
          rcases List.mem_append.mp hy with hy | hy
          · exact Or.inl hy
          · exact Or.inr (Or.inl ⟨filename, by simp [HTask.names],
              (List.mem_singleton.mp hy)⟩)
    | many l =>
      cases l with
      | nil =>
        simp only [fh_run, Option.some.injEq, Prod.mk.injEq] at h
        obtain ⟨rfl, rfl⟩ := h
        exact fun y hy => Or.inl hy
      | cons f rest =>
        simp only [fh_run] at h
        cases h1 : fh_run cfg fs fuel dl (HTask.one f) with
        | none => rw [h1] at h; exact absurd h (by simp)
        | some p1 =>
          obtain ⟨dl1, tr1⟩ := p1
          rw [h1] at h
          dsimp only at h
          cases h2 : fh_run cfg fs fuel dl1 (HTask.many rest) with
          | none => rw [h2] at h; exact absurd h (by simp)
          | some p2 =>
            obtain ⟨d2, t2⟩ := p2
            rw [h2] at h
            dsimp only at h
            simp only [Option.some.injEq, Prod.mk.injEq] at h
            obtain ⟨rfl, rfl⟩ := h
            intro y hy
            rcases ih _ _ _ _ h2 y hy with hy2 | ⟨g, hg, hyg⟩ | ⟨x, hx, inc, hi, hyi⟩ |
                ⟨x, hx, u, hu, hyu⟩
            · rcases ih _ _ _ _ h1 y hy2 with hy1 | ⟨g, hg, hyg⟩ | ⟨x, hx, inc, hi, hyi⟩ |
                  ⟨x, hx, u, hu, hyu⟩
              · exact Or.inl hy1
              · refine Or.inr (Or.inl ⟨f, by simp [HTask.names], ?_⟩)
                rw [hyg]
                rw [show g = f from by simpa [HTask.names] using hg]
              · exact Or.inr (Or.inr (Or.inl ⟨x, by simp [hx], inc, hi, hyi⟩))
              · exact Or.inr (Or.inr (Or.inr ⟨x, by simp [hx], u, hu, hyu⟩))
            · exact Or.inr (Or.inl ⟨g, by simp [HTask.names] at hg ⊢; exact Or.inr hg, hyg⟩)
            · exact Or.inr (Or.inr (Or.inl ⟨x, by simp [hx], inc, hi, hyi⟩))
            · exact Or.inr (Or.inr (Or.inr ⟨x, by simp [hx], u, hu, hyu⟩))

/-- Claim C7, counterexample: a run satisfying the claim's scenario —
`x.f90` uses `MMod`, M's defining file `mmod.f90` uses `NMod`, X does
not use `NMod` directly (no use directive of X resolves to N's
artifact) and does not include M's file — in which N's artifact
`$(SRCDIR)/nmod.mod` nevertheless appears in X's resolved set: X
includes the distinct file `z.f90`, which is scanned and whose own
`use NMod` adds the artifact. -/
theorem claim_C7_counterexample :
    fill_header_deplist exCfg fsModsInc 5 [] "x.f90" =
      some (["$(SRCDIR)/x.f90", "$(SRCDIR)/z.f90", "$(SRCDIR)/nmod.mod",
        "$(SRCDIR)/mmod.mod"], ["$(SRCDIR)/x.f90", "$(SRCDIR)/z.f90"]) ∧
    "$(SRCDIR)/nmod.mod" ∈
      ["$(SRCDIR)/x.f90", "$(SRCDIR)/z.f90", "$(SRCDIR)/nmod.mod",
        "$(SRCDIR)/mmod.mod"] ∧
    "MMod" ∈ scan_uses_f fsModsInc (get_realfile exCfg (tag_of "x.f90")) ∧
    "NMod" ∈ scan_uses_f fsModsInc "src/mmod.f90" ∧
    get_module exCfg fsModsInc "NMod" = some "$(SRCDIR)/nmod.mod" ∧
    (∀ u ∈ scan_uses_f fsModsInc (get_realfile exCfg (tag_of "x.f90")),
      get_module exCfg fsModsInc u ≠ some "$(SRCDIR)/nmod.mod") ∧
    "mmod.f90" ∉ scan_includes_f fsModsInc (get_realfile exCfg (tag_of "x.f90")) := by
  decide

/-- Claim C7 as amended: in every Fortran run on source X that uses
module M, where M's defining file itself uses module N, module-use
extraction never recurses into the used module's file: a module artifact
enters the set only through a `use` directive of a file actually scanned
during the run, and a tagged filename only as the entry or an include
target of a scanned file.  Hence, provided no scanned file's use
directive resolves to N's artifact and no include target (nor the entry
X itself) names the artifact, N's artifact does not appear in X's
resolved DependencySet — while M's artifact, directly used by X, does. -/
theorem claim_C7 (cfg : Cfg) (fs : FS) (fuel : Nat)
    (X mName mArt nUse nArt mPath : String) (dl tr : List String)
    (hfile : fs.isFile (get_realfile cfg (tag_of X)) = true)
    (hninc : strEndsWith (get_realfile cfg (tag_of X)) ".inc" = false)
    (hM : mName ∈ scan_uses_f fs (get_realfile cfg (tag_of X)))
    (hMart : get_module cfg fs mName = some mArt)
    (_hMN : nUse ∈ scan_uses_f fs mPath)
    (_hNart : get_module cfg fs nUse = some nArt)
    (hTagX : tag_of X ≠ nArt)
    (hNoIncN : ∀ x ∈ tr, ∀ inc ∈ scan_includes_f fs (get_realfile cfg x),
      tag_of inc ≠ nArt)
    (hNoUseN : ∀ x ∈ tr, ∀ u ∈ scan_uses_f fs (get_realfile cfg x),
      get_module cfg fs u ≠ some nArt)
    (hrun : fill_header_deplist cfg fs fuel [] X = some (dl, tr)) :
    nArt ∉ dl ∧ mArt ∈ dl := by
  unfold fill_header_deplist at hrun
  have hscan : tag_of X ∈ tr :=
    fh_entry_scanned cfg fs fuel [] X dl tr hrun (List.not_mem_nil _) hfile
  constructor
  · intro hmem
    rcases fh_origin cfg fs fuel [] _ dl tr hrun nArt hmem with
      h0 | ⟨f, hf, heq⟩ | ⟨x, hx, inc, hi, heq⟩ | ⟨x, hx, u, hu, hgu⟩
    · exact List.not_mem_nil _ h0
    · have : f = X := by simpa [HTask.names] using hf
      rw [this] at heq
      exact hTagX heq.symm
    · exact hNoIncN x hx inc hi heq.symm
    · exact hNoUseN x hx u hu hgu
  · exact fh_use_sound cfg fs fuel [] _ dl tr hrun (tag_of X) hscan hninc
      mName hM mArt hMart

/-- Witness for C7 (amended): `x.f90` uses `MMod`; `mmod.f90` uses
`NMod`; `nmod.f90` exists; `x.f90` includes nothing, so no scanned file
uses `NMod`.  X's resolved set gains `$(SRCDIR)/mmod.mod` but not
`$(SRCDIR)/nmod.mod`. -/
theorem claim_C7_witness :
    "$(SRCDIR)/nmod.mod" ∉ ["$(SRCDIR)/x.f90", "$(SRCDIR)/mmod.mod"] ∧
    "$(SRCDIR)/mmod.mod" ∈ ["$(SRCDIR)/x.f90", "$(SRCDIR)/mmod.mod"] :=
  claim_C7 exCfg fsMods 3 "x.f90" "MMod" "$(SRCDIR)/mmod.mod" "NMod"
    "$(SRCDIR)/nmod.mod" "src/mmod.f90" ["$(SRCDIR)/x.f90", "$(SRCDIR)/mmod.mod"]
    ["$(SRCDIR)/x.f90"] (by decide) (by decide) (by decide) (by decide) (by decide)
    (by decide) (by decide) (by decide) (by decide) (by decide)

/-- Claim C8: in any C/C++ resolution run from entry `a`, if a located
file of `a` includes a target whose basename locates file B, and B's
content includes a target whose basename locates file C, then C is a
member of `a`'s resolved DependencySet — the closure is transitive
through headers and their associated sources alike. -/
theorem claim_C8 (cfg : Cfg) (fs : FS) (fuel : Nat) (a : String)
    (dl tr : List String) (fA tB fB tC fC : String)
    (hrun : fill_object_deplist cfg fs fuel [] a = some (dl, tr))
    (hA : fA ∈ located cfg fs a)
    (hAB : tB ∈ scan_includes_c fs (get_realfile cfg fA))
    (hB : fB ∈ located cfg fs (splitextRoot tB))
    (hBC : tC ∈ scan_includes_c fs (get_realfile cfg fB))
    (hC : fC ∈ located cfg fs (splitextRoot tC)) :
    fC ∈ dl := by
  unfold fill_object_deplist at hrun
  have hsub := (fo_invariants cfg fs fuel [] _ dl tr hrun).2.2.2.1
  have h1 : fA ∈ dl := fo_one_mem cfg fs fuel [] a dl tr hrun fA hA
  have htr1 : fA ∈ tr := by
    rcases hsub fA h1 with hx | hx
    · exact absurd hx (List.not_mem_nil fA)
    · exact hx
  have h2 : fB ∈ dl := fo_sound cfg fs fuel [] _ dl tr hrun fA htr1 tB hAB fB hB
  have htr2 : fB ∈ tr := by
    rcases hsub fB h2 with hx | hx
    · exact absurd hx (List.not_mem_nil fB)
    · exact hx
  exact fo_sound cfg fs fuel [] _ dl tr hrun fB htr2 tC hBC fC hC

/-- Witness for C8: the chain `a.cpp → b.h → c.h/c.c`: `c.c` (the source
sharing the basename of the included `c.h`) is in `a`'s resolved set. -/
theorem claim_C8_witness :
    "$(SRCDIR)/c.c" ∈ ["$(SRCDIR)/a.cpp", "$(INCDIR)/b.h", "$(SRCDIR)/c.c"] :=
  claim_C8 exCfg fsChain 12 "a"
    ["$(SRCDIR)/a.cpp", "$(INCDIR)/b.h", "$(SRCDIR)/c.c"]
    ["$(SRCDIR)/a.cpp", "$(INCDIR)/b.h", "$(SRCDIR)/c.c"]
    "$(SRCDIR)/a.cpp" "b.h" "$(INCDIR)/b.h" "c.h" "$(SRCDIR)/c.c"
    (by decide) (by decide) (by decide) (by decide) (by decide) (by decide)

theorem fh_step_one_mem (cfg : Cfg) (fs : FS) (fuel : Nat) (dl : List String) (f : String)
    (hmem : tag_of f ∈ dl) :
    fh_run cfg fs (fuel + 1) dl (HTask.one f) = some (dl, []) := by
  simp only [fh_run, if_pos hmem]

theorem fh_step_one_scan (cfg : Cfg) (fs : FS) (fuel : Nat) (dl : List String) (f : String)
    {dl2 tr : List String}
    (hmem : tag_of f ∉ dl)
    (hfile : fs.isFile (get_realfile cfg (tag_of f)) = true)
    (hmany : fh_run cfg fs fuel (dl ++ [tag_of f])
      (HTask.many (scan_includes_f fs (get_realfile cfg (tag_of f)))) = some (dl2, tr)) :
    fh_run cfg fs (fuel + 1) dl (HTask.one f) =
      some ((if strEndsWith (get_realfile cfg (tag_of f)) ".inc" = true then dl2
        else add_modules cfg fs dl2 (scan_uses_f fs (get_realfile cfg (tag_of f)))),
        tag_of f :: tr) := by
  simp only [fh_run, if_neg hmem, hfile, if_true, hmany]
  split <;> rfl

theorem fh_step_many_nil (cfg : Cfg) (fs : FS) (fuel : Nat) (dl : List String) :
    fh_run cfg fs (fuel + 1) dl (HTask.many []) = some (dl, []) := by
  simp only [fh_run]

theorem fh_step_many (cfg : Cfg) (fs : FS) (fuel : Nat) (dl : List String)
    (f : String) (rest : List String) {dl1 tr1 dl2 tr2 : List String}
    (h1 : fh_run cfg fs fuel dl (HTask.one f) = some (dl1, tr1))
    (h2 : fh_run cfg fs fuel dl1 (HTask.many rest) = some (dl2, tr2)) :
    fh_run cfg fs (fuel + 1) dl (HTask.many (f :: rest)) = some (dl2, tr1 ++ tr2) := by
  simp only [fh_run, h1]
  rw [h2]

theorem fo_step_one (cfg : Cfg) (fs : FS) (fuel : Nat) (dl : List String) (b : String) :
    fo_run cfg fs (fuel + 1) dl (OTask.one b) =
      fo_run cfg fs fuel dl (OTask.files (located cfg fs b)) := by
  simp only [fo_run]

theorem fo_step_files_nil (cfg : Cfg) (fs : FS) (fuel : Nat) (dl : List String) :
    fo_run cfg fs (fuel + 1) dl (OTask.files []) = some (dl, []) := by
  simp only [fo_run]

theorem fo_step_incs_nil (cfg : Cfg) (fs : FS) (fuel : Nat) (dl : List String) :
    fo_run cfg fs (fuel + 1) dl (OTask.incs []) = some (dl, []) := by
  simp only [fo_run]

theorem fo_step_files_mem (cfg : Cfg) (fs : FS) (fuel : Nat) (dl : List String)
    (f : String) (rest : List String) (hmem : f ∈ dl) :
    fo_run cfg fs (fuel + 1) dl (OTask.files (f :: rest)) =
      fo_run cfg fs fuel dl (OTask.files rest) := by
  simp only [fo_run, if_pos hmem]

theorem fo_step_files_new (cfg : Cfg) (fs : FS) (fuel : Nat) (dl : List String)
    (f : String) (rest : List String) {dl2 tr dl3 tr2 : List String}
    (hmem : f ∉ dl)
    (h1 : fo_run cfg fs fuel (dl ++ [f])
      (OTask.incs (scan_includes_c fs (get_realfile cfg f))) = some (dl2, tr))
    (h2 : fo_run cfg fs fuel dl2 (OTask.files rest) = some (dl3, tr2)) :
    fo_run cfg fs (fuel + 1) dl (OTask.files (f :: rest)) =
      some (dl3, (f :: tr) ++ tr2) := by
  simp only [fo_run, if_neg hmem, h1]
  rw [h2]

theorem fo_step_incs (cfg : Cfg) (fs : FS) (fuel : Nat) (dl : List String)
    (t : String) (rest : List String) {dl1 tr1 dl2 tr2 : List String}
    (h1 : fo_run cfg fs fuel dl (OTask.one (splitextRoot t)) = some (dl1, tr1))
    (h2 : fo_run cfg fs fuel dl1 (OTask.incs rest) = some (dl2, tr2)) :
    fo_run cfg fs (fuel + 1) dl (OTask.incs (t :: rest)) = some (dl2, tr1 ++ tr2) := by
  simp only [fo_run, h1]
  rw [h2]

/-- The cyclic two-file Fortran scenario: A's file includes exactly B,
B's file includes exactly A.  Resolution terminates with explicit fuel,
the scan trace is exactly [A, B], and each file is in the set once. -/
theorem fh_cycle (cfg : Cfg) (fs : FS) (A B : String) (fuel : Nat)
    (hAB : tag_of A ≠ tag_of B)
    (hA : fs.isFile (get_realfile cfg (tag_of A)) = true)
    (hB : fs.isFile (get_realfile cfg (tag_of B)) = true)
    (hIA : scan_includes_f fs (get_realfile cfg (tag_of A)) = [B])
    (hIB : scan_includes_f fs (get_realfile cfg (tag_of B)) = [A]) :
    ∃ dl, fill_header_deplist cfg fs (fuel + 6) [] A = some (dl, [tag_of A, tag_of B]) ∧
      dl.count (tag_of A) = 1 ∧ dl.count (tag_of B) = 1 := by
  have hBA : tag_of B ≠ tag_of A := Ne.symm hAB
  have s1 : fh_run cfg fs (fuel + 2) [tag_of A, tag_of B] (HTask.one A) =
      some ([tag_of A, tag_of B], []) :=
    fh_step_one_mem cfg fs (fuel + 1) _ A (by simp)
  have s2 : fh_run cfg fs (fuel + 2) [tag_of A, tag_of B] (HTask.many []) =
      some ([tag_of A, tag_of B], []) := fh_step_many_nil cfg fs (fuel + 1) _
  have s3 : fh_run cfg fs (fuel + 3) [tag_of A, tag_of B] (HTask.many [A]) =
      some ([tag_of A, tag_of B], []) := fh_step_many cfg fs (fuel + 2) _ A [] s1 s2
  obtain ⟨dlB, s4, hpfxB, hndB⟩ : ∃ dlB,
      fh_run cfg fs (fuel + 4) [tag_of A] (HTask.one B) = some (dlB, [tag_of B]) ∧
      [tag_of A, tag_of B] <+: dlB ∧ ([tag_of A, tag_of B].Nodup → dlB.Nodup) := by
    have s3b : fh_run cfg fs (fuel + 3) ([tag_of A] ++ [tag_of B])
        (HTask.many (scan_includes_f fs (get_realfile cfg (tag_of B)))) =
        some ([tag_of A, tag_of B], []) := by
      rw [hIB]; exact s3
    have base := fh_step_one_scan cfg fs (fuel + 3) [tag_of A] B
      (by simp [hBA]) hB s3b
    by_cases hBinc : strEndsWith (get_realfile cfg (tag_of B)) ".inc" = true
    · rw [if_pos hBinc] at base
      exact ⟨[tag_of A, tag_of B], base, List.prefix_refl _, id⟩
    · rw [if_neg hBinc] at base
      exact ⟨_, base, add_modules_isPfx cfg fs _ _,
        fun h => add_modules_nodup cfg fs _ _ h⟩
  have s5 : fh_run cfg fs (fuel + 5) [tag_of A] (HTask.many [B]) =
      some (dlB, [tag_of B]) :=
    fh_step_many cfg fs (fuel + 4) _ B [] s4 (fh_step_many_nil cfg fs (fuel + 3) dlB)
  obtain ⟨dlF, s6, hpfxF, hndF⟩ : ∃ dlF,
      fh_run cfg fs (fuel + 6) [] (HTask.one A) = some (dlF, [tag_of A, tag_of B]) ∧
      dlB <+: dlF ∧ (dlB.Nodup → dlF.Nodup) := by
    have s5b : fh_run cfg fs (fuel + 5) ([] ++ [tag_of A])
        (HTask.many (scan_includes_f fs (get_realfile cfg (tag_of A)))) =
        some (dlB, [tag_of B]) := by
      rw [hIA]; exact s5
    have base := fh_step_one_scan cfg fs (fuel + 5) [] A (by simp) hA s5b
    by_cases hAinc : strEndsWith (get_realfile cfg (tag_of A)) ".inc" = true
    · rw [if_pos hAinc] at base
      exact ⟨dlB, base, List.prefix_refl _, id⟩
    · rw [if_neg hAinc] at base
      exact ⟨_, base, add_modules_isPfx cfg fs _ _,
        fun h => add_modules_nodup cfg fs _ _ h⟩
  have hndFin : dlF.Nodup := hndF (hndB (by simp [hAB]))
  exact ⟨dlF, s6,
    List.count_eq_one_of_mem hndFin ((hpfxB.trans hpfxF).subset (by simp)),
    List.count_eq_one_of_mem hndFin ((hpfxB.trans hpfxF).subset (by simp))⟩

/-- The cyclic two-file C/C++ scenario: a's only located file includes
b's, whose only located file includes a's again.  Resolution terminates,
the set and the scan trace are exactly [fA, fB]. -/
theorem fo_cycle (cfg : Cfg) (fs : FS) (a b fA fB tA tB : String) (fuel : Nat)
    (hLa : located cfg fs a = [fA])
    (hLb : located cfg fs b = [fB])
    (hne : fA ≠ fB)
    (hIA : scan_includes_c fs (get_realfile cfg fA) = [tB])
    (htB : splitextRoot tB = b)
    (hIB : scan_includes_c fs (get_realfile cfg fB) = [tA])
    (htA : splitextRoot tA = a) :
    fill_object_deplist cfg fs (fuel + 9) [] a = some ([fA, fB], [fA, fB]) ∧
    ([fA, fB]).count fA = 1 ∧ ([fA, fB]).count fB = 1 := by
  have hne2 : fB ≠ fA := Ne.symm hne
  have o1a : fo_run cfg fs (fuel + 2) [fA, fB] (OTask.files [fA]) =
      some ([fA, fB], []) :=
    (fo_step_files_mem cfg fs (fuel + 1) [fA, fB] fA [] (by simp)).trans
      (fo_step_files_nil cfg fs fuel [fA, fB])
  have o1 : fo_run cfg fs (fuel + 3) [fA, fB] (OTask.one a) = some ([fA, fB], []) := by
    have h := fo_step_one cfg fs (fuel + 2) [fA, fB] a
    rw [hLa] at h
    exact h.trans o1a
  have o4 : fo_run cfg fs (fuel + 4) [fA, fB] (OTask.incs [tA]) =
      some ([fA, fB], []) := by
    have h1 : fo_run cfg fs (fuel + 3) [fA, fB] (OTask.one (splitextRoot tA)) =
        some ([fA, fB], []) := by
      rw [htA]; exact o1
    exact fo_step_incs cfg fs (fuel + 3) [fA, fB] tA [] h1
      (fo_step_incs_nil cfg fs (fuel + 2) [fA, fB])
  have o5 : fo_run cfg fs (fuel + 5) [fA] (OTask.files [fB]) =
      some ([fA, fB], [fB]) := by
    have h1 : fo_run cfg fs (fuel + 4) ([fA] ++ [fB])
        (OTask.incs (scan_includes_c fs (get_realfile cfg fB))) =
        some ([fA, fB], []) := by
      rw [hIB]; exact o4
    exact fo_step_files_new cfg fs (fuel + 4) [fA] fB [] (by simp [hne2]) h1
      (fo_step_files_nil cfg fs (fuel + 3) [fA, fB])
  have o6 : fo_run cfg fs (fuel + 6) [fA] (OTask.one b) = some ([fA, fB], [fB]) := by
    have h := fo_step_one cfg fs (fuel + 5) [fA] b
    rw [hLb] at h
    exact h.trans o5
  have o7 : fo_run cfg fs (fuel + 7) [fA] (OTask.incs [tB]) =
      some ([fA, fB], [fB]) := by
    have h1 : fo_run cfg fs (fuel + 6) [fA] (OTask.one (splitextRoot tB)) =
        some ([fA, fB], [fB]) := by
      rw [htB]; exact o6
    exact fo_step_incs cfg fs (fuel + 6) [fA] tB [] h1
      (fo_step_incs_nil cfg fs (fuel + 5) [fA, fB])
  have o8 : fo_run cfg fs (fuel + 8) [] (OTask.files [fA]) =
      some ([fA, fB], [fA, fB]) := by
    have h1 : fo_run cfg fs (fuel + 7) ([] ++ [fA])
        (OTask.incs (scan_includes_c fs (get_realfile cfg fA))) =
        some ([fA, fB], [fB]) := by
      rw [hIA]; exact o7
    exact fo_step_files_new cfg fs (fuel + 7) [] fA [] (by simp) h1
      (fo_step_files_nil cfg fs (fuel + 6) [fA, fB])
  have o9 : fo_run cfg fs (fuel + 9) [] (OTask.one a) = some ([fA, fB], [fA, fB]) := by
    have h := fo_step_one cfg fs (fuel + 8) [] a
    rw [hLa] at h
    exact h.trans o8
  refine ⟨o9, ?_, ?_⟩
  · simp [List.count_cons, hne, hne2]
  · simp [List.count_cons, hne, hne2]

/-- Claim C6: cyclic inclusion graphs (A's file includes B, B's file
includes A) resolve with finite explicit fuel in both modes, each of the
two files appearing exactly once in the resulting DependencySet; and in
every run of either mode the scan trace never repeats a LogicalFile and
never touches one already in the set when the run started — the set
doubles as the visited-set. -/
theorem claim_C6 :
    (∀ (cfg : Cfg) (fs : FS) (A B : String) (fuel : Nat),
      tag_of A ≠ tag_of B →
      fs.isFile (get_realfile cfg (tag_of A)) = true →
      fs.isFile (get_realfile cfg (tag_of B)) = true →
      scan_includes_f fs (get_realfile cfg (tag_of A)) = [B] →
      scan_includes_f fs (get_realfile cfg (tag_of B)) = [A] →
      ∃ dl, fill_header_deplist cfg fs (fuel + 6) [] A =
          some (dl, [tag_of A, tag_of B]) ∧
        dl.count (tag_of A) = 1 ∧ dl.count (tag_of B) = 1) ∧
    (∀ (cfg : Cfg) (fs : FS) (a b fA fB tA tB : String) (fuel : Nat),
      located cfg fs a = [fA] → located cfg fs b = [fB] → fA ≠ fB →
      scan_includes_c fs (get_realfile cfg fA) = [tB] → splitextRoot tB = b →
      scan_includes_c fs (get_realfile cfg fB) = [tA] → splitextRoot tA = a →
      fill_object_deplist cfg fs (fuel + 9) [] a = some ([fA, fB], [fA, fB]) ∧
      ([fA, fB]).count fA = 1 ∧ ([fA, fB]).count fB = 1) ∧
    (∀ (cfg : Cfg) (fs : FS) (fuel : Nat) (dl : List String) (t : HTask)
      (dl2 tr : List String), fh_run cfg fs fuel dl t = some (dl2, tr) →
      tr.Nodup ∧ ∀ x ∈ tr, x ∉ dl) ∧
    (∀ (cfg : Cfg) (fs : FS) (fuel : Nat) (dl : List String) (t : OTask)
      (dl2 tr : List String), fo_run cfg fs fuel dl t = some (dl2, tr) →
      tr.Nodup ∧ ∀ x ∈ tr, x ∉ dl) := by
  refine ⟨?_, ?_, ?_, ?_⟩
  · intro cfg fs A B fuel h1 h2 h3 h4 h5
    exact fh_cycle cfg fs A B fuel h1 h2 h3 h4 h5
  · intro cfg fs a b fA fB tA tB fuel h1 h2 h3 h4 h5 h6 h7
    exact fo_cycle cfg fs a b fA fB tA tB fuel h1 h2 h3 h4 h5 h6 h7
  · intro cfg fs fuel dl t dl2 tr h
    obtain ⟨_, hfresh, hnd, _⟩ := fh_invariants cfg fs fuel dl t dl2 tr h
    exact ⟨hnd, fun x hx => (hfresh x hx).1⟩
  · intro cfg fs fuel dl t dl2 tr h
    obtain ⟨_, hfresh, hnd, _, _⟩ := fo_invariants cfg fs fuel dl t dl2 tr h
    exact ⟨hnd, fun x hx => (hfresh x hx).1⟩

/-- Witness for C6: the two-file cycles `a.inc ↔ b.inc` (Fortran) and
`a.h ↔ b.h` (C/C++): both resolve at the stated fuel with each file
exactly once, and the no-rescan property instantiated on the Fortran
run. -/
theorem claim_C6_witness :
    (∃ dl, fill_header_deplist exCfg fsCycH (0 + 6) [] "a.inc" =
        some (dl, [tag_of "a.inc", tag_of "b.inc"]) ∧
      dl.count (tag_of "a.inc") = 1 ∧ dl.count (tag_of "b.inc") = 1) ∧
    (fill_object_deplist exCfg fsCycO (0 + 9) [] "a" =
        some (["$(INCDIR)/a.h", "$(INCDIR)/b.h"], ["$(INCDIR)/a.h", "$(INCDIR)/b.h"]) ∧
      (["$(INCDIR)/a.h", "$(INCDIR)/b.h"]).count "$(INCDIR)/a.h" = 1 ∧
      (["$(INCDIR)/a.h", "$(INCDIR)/b.h"]).count "$(INCDIR)/b.h" = 1) ∧
    ((["$(INCDIR)/a.inc", "$(INCDIR)/b.inc"] : List String).Nodup ∧
      ∀ x ∈ (["$(INCDIR)/a.inc", "$(INCDIR)/b.inc"] : List String),
        x ∉ ([] : List String)) := by
  refine ⟨?_, ?_, ?_⟩
  · exact claim_C6.1 exCfg fsCycH "a.inc" "b.inc" 0 (by decide) (by decide) (by decide)
      (by decide) (by decide)
  · exact claim_C6.2.1 exCfg fsCycO "a" "b" "$(INCDIR)/a.h" "$(INCDIR)/b.h" "a.h" "b.h" 0
      (by decide) (by decide) (by decide) (by decide) (by decide) (by decide) (by decide)
  · exact claim_C6.2.2.1 exCfg fsCycH 6 [] (HTask.one "a.inc")
      ["$(INCDIR)/a.inc", "$(INCDIR)/b.inc"] ["$(INCDIR)/a.inc", "$(INCDIR)/b.inc"]
      (by decide)
